import Mathlib

/-!
Verification of the variant_forest core against its specification.

The definitions below are a shallow embedding of the Rust sources:
machine integers become `Nat` with explicit reduction modulo `2^64` / `2^32`
where the Rust code relies on wrapping arithmetic, `Vec` becomes `List`,
and panics that are unreachable on the inputs considered are replaced by
default values noted in the doc comments.
-/

namespace VF

/-! ## PRNG (src/random_number_generator.rs)

`Rng` is a PCG-32 generator: 64-bit LCG state with wrapping arithmetic and a
rotate-xorshift output to 32 bits.  The compile-time `SALT` is 0 in test
builds, which is the configuration the spec's test vectors use, so the seed
is used directly. -/

def U64 : Nat := 2 ^ 64

def U32 : Nat := 2 ^ 32

/-- `MULTIPLIER` from the source. -/
def MULTIPLIER : Nat := 6364136223846793005

structure Rng where
  state : Nat
  increment : Nat
deriving Repr, DecidableEq

/-- `Rng::step`: `state = state.wrapping_mul(MULTIPLIER).wrapping_add(increment)`. -/
def Rng.step (r : Rng) : Rng :=
  { r with state := (r.state * MULTIPLIER + r.increment) % U64 }

/-- `Rng::new(seed, increment)` with salt 0: initial state is
`seed + increment` (wrapping), then one `step`.  The source panics when
`increment == 0`; every use in this development has `increment ≥ 1`. -/
def Rng.new (seed increment : Nat) : Rng :=
  Rng.step { state := (seed + increment) % U64, increment := increment }

/-- `u32::rotate_right` for values `x < 2^32`. -/
def rotr32 (x r : Nat) : Nat :=
  ((x >>> (r % 32)) ||| (x <<< ((32 - r % 32) % 32))) % U32

/-- `Rng::next_u32`: reads the state, steps, and applies the PCG
rotate-xorshift output permutation (`ROTATE = 59`, `XSHIFT = 18`,
`SPARE = 27`). -/
def Rng.next_u32 (r : Rng) : Nat × Rng :=
  let state := r.state
  let rot := state >>> 59
  let xsh := (((state >>> 18) ^^^ state) >>> 27) % U32
  (rotr32 xsh rot, r.step)

/-- The list of the first `n` `next_u32` outputs of a generator. -/
def Rng.outputs (r : Rng) : Nat → List Nat
  | 0 => []
  | n + 1 =>
    let (v, r') := r.next_u32
    v :: r'.outputs n

/-! ## RngFactory (src/random_number_generator/factory.rs)

Each stream kind is distinguished purely by the PRNG `increment` passed to
`Rng::new`; the factory's `seed` is shared.  The four increment formulas are
taken verbatim from `new_rng_shadow`, `new_rng_tree`, `new_rng_tree_mask`
and `new_rng_permutation`. -/

def incShadow (c : Nat) : Nat := c + 1

def incTree (ncol i : Nat) : Nat := ncol + i + 1

def incTreeMask (ncol ntree i : Nat) : Nat := ncol + ntree + i + 1

def incPermutation (ncol ntree i c : Nat) : Nat := ncol + ntree * 2 + i * ncol + c + 1

/-- `RngFactory::new_rng_shadow`. -/
def newRngShadow (seed c : Nat) : Rng := Rng.new seed (incShadow c)

/-- `RngFactory::new_rng_tree`. -/
def newRngTree (seed ncol i : Nat) : Rng := Rng.new seed (incTree ncol i)

/-- `RngFactory::new_rng_tree_mask`. -/
def newRngTreeMask (seed ncol ntree i : Nat) : Rng := Rng.new seed (incTreeMask ncol ntree i)

/-- `RngFactory::new_rng_permutation`. -/
def newRngPermutation (seed ncol ntree i c : Nat) : Rng :=
  Rng.new seed (incPermutation ncol ntree i c)

/-- The four kinds of PRNG stream a factory hands out, with their index
data: shadow column `c`, tree `i`, tree-mask `i`, permutation `(i, c)`. -/
inductive StreamId where
  | shadow (c : Nat)
  | tree (i : Nat)
  | treeMask (i : Nat)
  | permutation (i c : Nat)
deriving DecidableEq

/-- Validity of a stream index for a factory built over `ncol` columns and
`ntree` trees. -/
def StreamId.valid (ncol ntree : Nat) : StreamId → Prop
  | .shadow c => c < ncol
  | .tree i => i < ntree
  | .treeMask i => i < ntree
  | .permutation i c => i < ntree ∧ c < ncol

instance (ncol ntree : Nat) (s : StreamId) : Decidable (s.valid ncol ntree) := by
  cases s <;> (unfold StreamId.valid; infer_instance)

/-- The increment assigned to a stream. -/
def StreamId.inc (ncol ntree : Nat) : StreamId → Nat
  | .shadow c => incShadow c
  | .tree i => incTree ncol i
  | .treeMask i => incTreeMask ncol ntree i
  | .permutation i c => incPermutation ncol ntree i c

theorem mul_add_inj {n i j c d : Nat} (hc : c < n) (hd : d < n)
    (h : i * n + c = j * n + d) : i = j ∧ c = d := by
  have hn : 0 < n := Nat.lt_of_le_of_lt (Nat.zero_le c) hc
  have hi : i = j := by
    have h1 : (i * n + c) / n = i := by
      rw [Nat.mul_comm i n, Nat.mul_add_div hn, Nat.div_eq_of_lt hc, Nat.add_zero]
    have h2 : (j * n + d) / n = j := by
      rw [Nat.mul_comm j n, Nat.mul_add_div hn, Nat.div_eq_of_lt hd, Nat.add_zero]
    rw [← h1, ← h2, h]
  refine ⟨hi, ?_⟩
  subst hi
  omega

/-- C5: for every factory configuration `(ncol, ntree)`, any two distinct
valid streams among the four kinds (shadow `c`, tree `i`, tree-mask `i`,
permutation `(i, c)`) receive distinct PRNG increments. -/
theorem stream_increments_distinct (ncol ntree : Nat) (s t : StreamId)
    (hs : s.valid ncol ntree) (ht : t.valid ncol ntree) (hne : s ≠ t) :
    s.inc ncol ntree ≠ t.inc ncol ntree := by
  intro h
  apply hne
  cases s <;> cases t <;>
      simp only [StreamId.valid] at hs ht <;>
      simp only [StreamId.inc, incShadow, incTree, incTreeMask, incPermutation] at h
  all_goals try (exfalso; omega)
  all_goals try (congr 1 <;> omega)
  next =>
    rename_i i c j d
    obtain ⟨hi, hc⟩ := mul_add_inj (i := i) (j := j) hs.2 ht.2 (by omega)
    rw [hi, hc]

/-- Witness for C5 at a concrete configuration. -/
theorem stream_increments_distinct_witness :
    (StreamId.shadow 0).inc 3 2 ≠ (StreamId.tree 1).inc 3 2 :=
  stream_increments_distinct 3 2 (.shadow 0) (.tree 1) (by decide) (by decide) (by decide)

/-- C4: for the PRNG constructed with seed 21 and increment 1 (salt 0), the
first six `next_u32` outputs are exactly the six reference values. -/
theorem rng_seed21_first_six_outputs :
    (Rng.new 21 1).outputs 6 =
      [4046551126, 3645130801, 1491492233, 2234036793, 669229171, 981735442] := by
  rfl

/-! ## Mask (src/mask.rs)

A `Mask` is the wrapped `Vec<usize>`; the constructor `Mask::new` clones and
sorts its input (`Vec::sort`, a stable ascending sort — it does not remove
duplicates).  `Mask::inverse` builds the set difference of an explicit range
and the mask through `HashSet`s and re-sorts through the constructor; the
hash sets are modeled by deduplicated lists, which is faithful because the
constructor sorts the (unordered) difference. -/

/-- `Mask::new`: sort the input ascending. -/
def maskNew (l : List Nat) : List Nat := l.mergeSort

/-- `Mask::get_by_mask`: gather `x[i]` for every masked `i`, in mask order.
Out-of-range indexing panics in the source; the model returns `default`. -/
def getByMask [Inhabited α] (mask : List Nat) (x : List α) : List α :=
  mask.map (fun i => x.getD i default)

/-- `Mask::inverse`: elements of `range` that are not in the mask, re-sorted
through the constructor. -/
def maskInverse (mask range : List Nat) : List Nat :=
  maskNew (range.dedup.filter (fun x => decide (x ∉ mask)))

theorem maskNew_perm (l : List Nat) : List.Perm (maskNew l) l :=
  List.mergeSort_perm l _

theorem maskNew_sorted (l : List Nat) : (maskNew l).Sorted (· ≤ ·) :=
  List.sorted_mergeSort' l

/-- C6 counterexample: the constructor does not deduplicate, so the mask
built from the input `[1, 1]` — an input with a repeated index — is not a
sequence of distinct row indices. -/
theorem mask_new_not_nodup_on_repeat : ¬ (maskNew [1, 1]).Nodup := by
  have h : maskNew [1, 1] = [1, 1] := List.mergeSort_eq_self (by decide)
  rw [h]
  decide

/-- C6 (amended): every mask produced by the constructor is sorted ascending;
it consists of distinct indices whenever the input vector has no repeated
index (the constructor itself does not deduplicate); and `inverse` always
produces a sorted, duplicate-free mask because the set difference it passes
to the constructor is duplicate-free. -/
theorem mask_constructor_sorted_and_conditionally_nodup (l range : List Nat) :
    (maskNew l).Sorted (· ≤ ·) ∧
    (l.Nodup → (maskNew l).Nodup) ∧
    (maskInverse l range).Sorted (· ≤ ·) ∧
    (maskInverse l range).Nodup := by
  refine ⟨maskNew_sorted l, fun h => ((maskNew_perm l).nodup_iff).mpr h, maskNew_sorted _, ?_⟩
  exact ((maskNew_perm _).nodup_iff).mpr (range.nodup_dedup.filter _)

/-- Witness for C6 (amended) at concrete inputs. -/
theorem mask_constructor_sorted_and_conditionally_nodup_witness :
    (maskNew [2, 0, 1]).Sorted (· ≤ ·) ∧ (maskNew [2, 0, 1]).Nodup ∧
    (maskInverse [1, 3] [0, 1, 2, 3, 4]).Nodup := by
  obtain ⟨h1, h2, _, _⟩ :=
    mask_constructor_sorted_and_conditionally_nodup [2, 0, 1] [0, 1, 2, 3, 4]
  exact ⟨h1, h2 (by decide),
    (mask_constructor_sorted_and_conditionally_nodup [1, 3] [0, 1, 2, 3, 4]).2.2.2⟩

/-! ## Three-valued column (src/data_interface/three_val.rs)

The source stores `Vec<Option<ThreeVal>>`, but the constructor
`ThreeValCol::new` only ever produces `Some` values (it panics on bytes
outside {0,1,2}) and the core algorithms unwrap unconditionally (spec Q3:
absence is declared but unused), so a column is embedded as
`List ThreeVal`. -/

inductive ThreeVal where
  | Red
  | Green
  | Blue
deriving DecidableEq, Repr

instance : Inhabited ThreeVal := ⟨.Red⟩

inductive ThreeValPivot where
  | NotRed
  | NotGreen
  | NotBlue
deriving DecidableEq, Repr

/-- `PartialEq<ThreeVal> for ThreeValPivot`: `NotX == X` is `false`, every
other combination is `true`. -/
def pivotEq : ThreeValPivot → ThreeVal → Bool
  | .NotRed, .Red => false
  | .NotGreen, .Green => false
  | .NotBlue, .Blue => false
  | _, _ => true

/-- `ThreeValCol::new`: bytes 0, 1, 2 map to Red, Green, Blue.  Any other
byte panics in the source and does not occur in this development. -/
def threeValColNew (arr : List Nat) : List ThreeVal :=
  arr.map (fun x =>
    match x with
    | 0 => ThreeVal.Red
    | 1 => ThreeVal.Green
    | 2 => ThreeVal.Blue
    | _ => ThreeVal.Red)

/-- The fold inside `ThreeValCol::split_with_pivot`: push the row index into
the first accumulator when `pivot == value` holds, into the second
otherwise. -/
def splitAcc (col : List ThreeVal) (mask : List Nat) (p : ThreeValPivot) :
    List Nat × List Nat :=
  ((getByMask mask col).zip mask).foldl
    (fun acc row =>
      if pivotEq p row.1 then (acc.1 ++ [row.2], acc.2) else (acc.1, acc.2 ++ [row.2]))
    ([], [])

/-- `ThreeValCol::split_with_pivot`: both accumulated index vectors go
through the mask constructor.  The `shadow_rng` parameter of the source is
dead code (commented out in the source) and is omitted. -/
def splitWithPivot (col : List ThreeVal) (mask : List Nat) (p : ThreeValPivot) :
    List Nat × List Nat :=
  (maskNew (splitAcc col mask p).1, maskNew (splitAcc col mask p).2)

theorem split_fold_eq_filter (p : ThreeValPivot) (rows : List (ThreeVal × Nat))
    (a b : List Nat) :
    rows.foldl
      (fun acc row =>
        if pivotEq p row.1 then (acc.1 ++ [row.2], acc.2) else (acc.1, acc.2 ++ [row.2]))
      (a, b) =
    (a ++ (rows.filter (fun r => pivotEq p r.1)).map Prod.snd,
     b ++ (rows.filter (fun r => ! pivotEq p r.1)).map Prod.snd) := by
  induction rows generalizing a b with
  | nil => simp
  | cons row rest ih =>
    obtain ⟨v, j⟩ := row
    by_cases hp : pivotEq p v = true <;>
      simp [List.foldl_cons, List.filter_cons, hp, ih]

theorem split_rows_eq (col : List ThreeVal) (mask : List Nat) :
    (getByMask mask col).zip mask = mask.map (fun j => (col.getD j default, j)) := by
  induction mask with
  | nil => rfl
  | cons j rest ih =>
    simpa [getByMask] using ih

/-- C2 counterexample: for the one-row column `[Red]`, mask `[0]` and pivot
`NotRed`, the equality test `pivot == value` evaluates to `false` at row 0,
yet row 0 is sent to the second (right) output mask and the first (left)
output mask is empty — the opposite of the claimed direction. -/
theorem split_with_pivot_direction_counterexample :
    splitWithPivot [ThreeVal.Red] [0] .NotRed = ([], [0]) ∧
      pivotEq .NotRed .Red = false := by
  constructor
  · have h1 : splitAcc [ThreeVal.Red] [0] .NotRed = ([], [0]) := by decide
    simp [splitWithPivot, h1, maskNew]
  · decide

/-- C2 (amended): `split_with_pivot` sends a masked row to the left (first)
output mask exactly when the equality test `pivot == value` evaluates to
TRUE — so the left mask gathers the "not X" rows and the right mask gathers
the "is X" rows, the reverse of the claimed orientation. -/
theorem split_with_pivot_mem (col : List ThreeVal) (mask : List Nat) (p : ThreeValPivot)
    (i : Nat) :
    (i ∈ (splitWithPivot col mask p).1 ↔
      i ∈ mask ∧ pivotEq p (col.getD i default) = true) ∧
    (i ∈ (splitWithPivot col mask p).2 ↔
      i ∈ mask ∧ pivotEq p (col.getD i default) = false) := by
  unfold splitWithPivot splitAcc
  rw [split_rows_eq, split_fold_eq_filter]
  simp only [(maskNew_perm _).mem_iff, List.nil_append, List.mem_map, List.mem_filter,
    List.mem_map]
  constructor
  · constructor
    · rintro ⟨r, ⟨⟨j, hj, rfl⟩, hr⟩, rfl⟩
      exact ⟨hj, hr⟩
    · rintro ⟨hi, hp⟩
      exact ⟨(col.getD i default, i), ⟨⟨i, hi, rfl⟩, hp⟩, rfl⟩
  · constructor
    · rintro ⟨r, ⟨⟨j, hj, rfl⟩, hr⟩, rfl⟩
      simpa using ⟨hj, by simpa using hr⟩
    · rintro ⟨hi, hp⟩
      exact ⟨(col.getD i default, i), ⟨⟨i, hi, rfl⟩, by simp only [hp, Bool.not_false]⟩, rfl⟩

/-- C3: `split_with_pivot` over the column `[0,0,1,2,2,1,0,1]` with mask
`[0..6]` and pivot `NotRed` returns left mask `[2,3,4,5]` and right mask
`[0,1,6]`. -/
theorem split_with_pivot_concrete_s1 :
    splitWithPivot (threeValColNew [0, 0, 1, 2, 2, 1, 0, 1]) [0, 1, 2, 3, 4, 5, 6] .NotRed =
      ([2, 3, 4, 5], [0, 1, 6]) := by
  have h1 : splitAcc (threeValColNew [0, 0, 1, 2, 2, 1, 0, 1]) [0, 1, 2, 3, 4, 5, 6] .NotRed =
      ([2, 3, 4, 5], [0, 1, 6]) := by decide
  simp only [splitWithPivot, h1, maskNew]
  rw [List.mergeSort_eq_self (by decide), List.mergeSort_eq_self (by decide)]


/-! ## Forest z-score aggregation (src/random_forest.rs)

`RandomForest::zscore` maps each aggregated per-column list of per-tree
importance values (signed integers) to `mean / sqrt(variance)`.  The f64
arithmetic is idealized: the mean and variance are computed exactly over
`ℚ` following the source expression shapes (`val.iter().sum::<i64>() as f64
/ val.len() as f64` and `Σ (x - mean)^2 / val.len()`), and the final
square-root division is taken over `ℝ`. -/

/-- The mean as `zscore` computes it: the integer sum cast once, divided by
the length. -/
def impMean (val : List Int) : Rat := (val.sum : Rat) / val.length

/-- The variance as `zscore` computes it: `Σ (x - mean)^2 / len` — note the
denominator is the full length `N`, not `N - 1`. -/
def impVariance (val : List Int) : Rat :=
  (val.map (fun x : Int => ((x : Rat) - impMean val) ^ 2)).sum / val.length

/-- One z-score entry: `mean / var.sqrt()`. -/
noncomputable def zscoreVal (val : List Int) : Real :=
  ((impMean val : Rat) : Real) / Real.sqrt ((impVariance val : Rat) : Real)

/-- `RandomForest::zscore`: the per-column importance map (modeled as an
association list) with each value list replaced by its z-score.  Only the
columns present in the aggregated map appear in the result. -/
noncomputable def zscoreMap (imp : List (Nat × List Int)) : List (Nat × Real) :=
  imp.map (fun kv => (kv.1, zscoreVal kv.2))

/-- Spec-side definition: the arithmetic mean of the values. -/
noncomputable def specMean (val : List Int) : Real :=
  (val.map (fun x : Int => (x : Real))).sum / val.length

/-- Spec-side definition: the population variance `Σ (x - μ)² / N` with the
biased denominator `N`. -/
noncomputable def specPopulationVariance (val : List Int) : Real :=
  (val.map (fun x : Int => ((x : Real) - specMean val) ^ 2)).sum / val.length

/-- Spec-side definition: `mean(values) / sqrt(variance(values))` with the
population variance. -/
noncomputable def specZscore (val : List Int) : Real :=
  specMean val / Real.sqrt (specPopulationVariance val)

/-- The contrasting unbiased (`N - 1`) variant, used to show the two
denominators genuinely differ on the code's inputs. -/
noncomputable def specSampleZscore (val : List Int) : Real :=
  specMean val /
    Real.sqrt ((val.map (fun x : Int => ((x : Real) - specMean val) ^ 2)).sum /
      (val.length - 1))

theorem ratCast_sum_map (f : Int → Rat) (g : Int → Real)
    (h : ∀ x, ((f x : Rat) : Real) = g x) (val : List Int) :
    (((val.map f).sum : Rat) : Real) = (val.map g).sum := by
  induction val with
  | nil => simp
  | cons x rest ih => simp [Rat.cast_add, ih, h]

theorem intSum_cast (val : List Int) :
    ((val.sum : Rat) : Real) = (val.map (fun x : Int => (x : Real))).sum := by
  induction val with
  | nil => simp
  | cons x rest ih =>
    rw [List.sum_cons, List.map_cons, List.sum_cons, Int.cast_add, Rat.cast_add,
      Rat.cast_intCast, ih]

theorem impMean_cast (val : List Int) : ((impMean val : Rat) : Real) = specMean val := by
  unfold impMean specMean
  rw [Rat.cast_div, Rat.cast_natCast, intSum_cast]

theorem impVariance_cast (val : List Int) :
    ((impVariance val : Rat) : Real) = specPopulationVariance val := by
  unfold impVariance specPopulationVariance
  rw [Rat.cast_div, Rat.cast_natCast]
  congr 1
  refine ratCast_sum_map _ _ (fun x => ?_) val
  rw [Rat.cast_pow, Rat.cast_sub, Rat.cast_intCast, impMean_cast]

theorem zscoreVal_eq_spec (val : List Int) : zscoreVal val = specZscore val := by
  unfold zscoreVal specZscore
  rw [impMean_cast, impVariance_cast]

theorem zscoreVal_zero_two : zscoreVal [0, 2] = 1 := by
  have h1 : impMean [0, 2] = 1 := by norm_num [impMean]
  have h2 : impVariance [0, 2] = 1 := by norm_num [impVariance, h1]
  rw [zscoreVal, h1, h2]
  norm_num

theorem specSampleZscore_zero_two : specSampleZscore [0, 2] ≠ 1 := by
  have h : specSampleZscore [0, 2] = 1 / Real.sqrt 2 := by
    norm_num [specSampleZscore, specMean]
  rw [h]
  have hs : Real.sqrt 2 ≠ 1 := by rw [ne_eq, Real.sqrt_eq_one]; norm_num
  have hpos : 0 < Real.sqrt 2 := Real.sqrt_pos.mpr (by norm_num)
  have h0 : Real.sqrt 2 ≠ 0 := ne_of_gt hpos
  intro hcon
  apply hs
  field_simp at hcon
  linarith

/-- C8: `zscore` maps each aggregated per-column value list to
`mean / sqrt(variance)` with the biased population variance `Σ(x − μ)²/N`
(the unbiased `N − 1` variant provably differs on the input `[0, 2]`), and
a column absent from the aggregated importance map is absent from the
result (the key sets coincide). -/
theorem zscore_population_variance_formula (imp : List (Nat × List Int)) :
    ((zscoreMap imp).map Prod.fst = imp.map Prod.fst) ∧
    (∀ kv ∈ imp, (kv.1, specZscore kv.2) ∈ zscoreMap imp) ∧
    zscoreVal [0, 2] = 1 ∧ specSampleZscore [0, 2] ≠ 1 := by
  refine ⟨?_, ?_, zscoreVal_zero_two, specSampleZscore_zero_two⟩
  · unfold zscoreMap
    rw [List.map_map]
    rfl
  · intro kv hkv
    exact List.mem_map.mpr ⟨kv, hkv, by rw [zscoreVal_eq_spec]⟩

/-- Witness for C8 at a concrete aggregation map. -/
theorem zscore_population_variance_formula_witness :
    ((5 : Nat), specZscore [1, 2]) ∈ zscoreMap [((5 : Nat), [1, 2])] :=
  (zscore_population_variance_formula [(5, [1, 2])]).2.1 (5, [1, 2]) (by simp)

/-! ## Unguarded z-score division (C10)

On an all-equal importance list every f64 operation in `zscore` is exact
(the mean is the common value, every deviation is exactly 0, the variance is
exactly +0, and IEEE `sqrt(+0) = +0`), so the computation is modeled with
exact rationals plus the IEEE special values produced by the final division
by zero. -/

/-- Idealized IEEE f64 value: an exact finite rational or one of the special
values produced by dividing by zero. -/
inductive FloatVal where
  | num (q : Rat)
  | nan
  | posInf
  | negInf
deriving DecidableEq, Repr

def FloatVal.isFinite : FloatVal → Bool
  | .num _ => true
  | _ => false

/-- IEEE division of finite exact operands: `0/0 = NaN`, `±x/0 = ±∞`, and
the exact quotient otherwise. -/
def ieeeDiv (a b : Rat) : FloatVal :=
  if b = 0 then (if a = 0 then .nan else if 0 < a then .posInf else .negInf)
  else .num (a / b)

/-- `f64::sqrt` evaluated exactly at the arguments arising here: IEEE
`sqrt(+0) = +0`.  Other arguments are irrational in general and are not
modeled. -/
def sqrtExact (q : Rat) : Option Rat :=
  if q = 0 then some 0 else none

/-- The z-score entry `mean / var.sqrt()` exactly as the source computes it,
with IEEE semantics for the final division; defined whenever the square
root is exactly representable. -/
def zscoreEntryF (val : List Int) : Option FloatVal :=
  (sqrtExact (impVariance val)).map (fun s => ieeeDiv (impMean val) s)

theorem impMean_replicate (n : Nat) (k : Int) (hn : 1 ≤ n) :
    impMean (List.replicate n k) = k := by
  unfold impMean
  rw [List.sum_replicate, List.length_replicate, nsmul_eq_mul]
  have hn0 : (n : Rat) ≠ 0 := Nat.cast_ne_zero.mpr (by omega)
  push_cast
  field_simp

theorem impVariance_replicate (n : Nat) (k : Int) (hn : 1 ≤ n) :
    impVariance (List.replicate n k) = 0 := by
  unfold impVariance
  rw [impMean_replicate n k hn, List.map_replicate]
  simp

/-- C10: the z-score division `mean / sqrt(variance)` is unguarded — on any
column whose per-tree importance values are all equal (e.g. a column used by
exactly one tree) the population variance is exactly 0, and the returned
value is not finite: NaN when the common value is 0, `+∞`/`−∞` when it is
positive/negative. -/
theorem zscore_zero_variance_not_finite (n : Nat) (k : Int) (hn : 1 ≤ n) :
    impVariance (List.replicate n k) = 0 ∧
    zscoreEntryF (List.replicate n k) =
      some (if k = 0 then FloatVal.nan else if 0 < k then FloatVal.posInf else FloatVal.negInf) ∧
    (∀ v, zscoreEntryF (List.replicate n k) = some v → v.isFinite = false) := by
  have hv := impVariance_replicate n k hn
  have hm := impMean_replicate n k hn
  have h2 : zscoreEntryF (List.replicate n k) =
      some (if k = 0 then FloatVal.nan else if 0 < k then FloatVal.posInf else FloatVal.negInf) := by
    unfold zscoreEntryF
    rw [hv, hm]
    have hs : sqrtExact 0 = some 0 := rfl
    rw [hs, Option.map_some']
    unfold ieeeDiv
    rw [if_pos rfl]
    by_cases hk : k = 0
    · simp [hk]
    · rw [if_neg (by exact_mod_cast hk), if_neg hk]
      by_cases hkp : 0 < k
      · rw [if_pos (by exact_mod_cast hkp), if_pos hkp]
      · rw [if_neg (by exact_mod_cast hkp), if_neg hkp]
  refine ⟨hv, h2, ?_⟩
  intro v hveq
  rw [h2] at hveq
  obtain rfl : v = _ := (Option.some.inj hveq).symm
  split
  · rfl
  · split <;> rfl

/-- Witness for C10: a column seen by exactly one tree with importance 3
gets z-score `+∞`. -/
theorem zscore_zero_variance_not_finite_witness :
    zscoreEntryF (List.replicate 1 (3 : Int)) = some FloatVal.posInf := by
  have h := (zscore_zero_variance_not_finite 1 3 (by decide)).2.1
  simpa using h


/-! ## Shuffle, permute, DataFrame shadows (src/random_number_generator.rs,
src/data_interface/three_val.rs, src/data_interface/multi_x.rs) -/

/-- The rejection loop of Lemire's bounded multiplication
(`Rng::next_usize`): while `leftover < threshold`, re-roll `m` from a fresh
`next_u32`.  `fuel` bounds the number of re-rolls; it is never exhausted on
the evaluations in this development (each re-roll happens with probability
`threshold / 2^32 < upTo / 2^32`). -/
def nextUsizeLoop (threshold upTo : Nat) : Nat → Rng → Nat → Nat × Rng
  | 0, r, m => (m >>> 32, r)
  | fuel + 1, r, m =>
    if m % U32 < threshold then
      let (u, r') := r.next_u32
      nextUsizeLoop threshold upTo fuel r' (u * upTo)
    else (m >>> 32, r)

/-- `Rng::next_usize(up_to)`: Lemire's unbiased bounded multiplication.
`up_to = 1` returns 0 without consuming randomness; `up_to = 0` panics in
the source and does not occur here. -/
def Rng.next_usize (r : Rng) (upTo : Nat) : Nat × Rng :=
  if upTo ≤ 1 then (0, r)
  else
    let (u, r') := r.next_u32
    let m := u * upTo
    if m % U32 < upTo then
      nextUsizeLoop ((U32 - upTo) % upTo) upTo 64 r' m
    else (m >>> 32, r')

/-- `Vec::swap` on the list model; both indices are in range at every use. -/
def listSwap (l : List α) (i j : Nat) : List α :=
  match l[i]?, l[j]? with
  | some a, some b => (l.set i b).set j a
  | _, _ => l

def shuffleGo (fuel : Nat) (r : Rng) (l : List α) (e : Nat) : List α × Rng :=
  match fuel with
  | 0 => (l, r)
  | fuel + 1 =>
    if e + 1 < l.length then
      let (d, r') := r.next_usize (l.length - e)
      shuffleGo fuel r' (listSwap l e (e + d)) (e + 1)
    else (l, r)

/-- `Rng::shuffle`: Fisher–Yates in place, `for e in 0..(len-1):
swap(e, e + next_usize(len - e))`. -/
def Rng.shuffle (r : Rng) (l : List α) : List α × Rng :=
  shuffleGo l.length r l 0

/-- `Permutable::permute`: gather the masked values, shuffle the buffer with
the supplied RNG, scatter it back at the same positions; rows outside the
mask keep their value. -/
def permute [Inhabited α] (col : List α) (rng : Rng) (oobMask : List Nat) : List α :=
  let xs := (rng.shuffle (getByMask oobMask col)).1
  (xs.zip oobMask).foldl (fun acc p => acc.set p.2 p.1) col

/-! ## DataFrame (src/data_interface/multi_x.rs)

`XDf` holds the column vector and the two split-id maps.  The only column
kind is `ThreeVal` (`MultiX::ThreeVal`), so the wrapper enum is elided. -/

structure XDf where
  data : List (List ThreeVal)
  idxToSplitid : List Nat
  splitidToIdx : List Nat
deriving DecidableEq, Repr

/-- `XDf::new`: both split-id maps are the identity `0..ncol`. -/
def xdfNew (cols : List (List ThreeVal)) : XDf :=
  { data := cols
    idxToSplitid := List.range cols.length
    splitidToIdx := List.range cols.length }

/-- `Vec::resize(n, d)`: truncate or pad with `d` to length `n`. -/
def listResize (l : List α) (n : Nat) (d : α) : List α :=
  l.take n ++ List.replicate (n - l.length) d

/-- The doubling loop of `num_shadow`: double while `< 5`.  Doubling from
any positive count reaches `≥ 5` within three steps, so three iterations
model the loop exactly for every positive input. -/
def numShadowGo : Nat → Nat → Nat
  | 0, n => n
  | fuel + 1, n => if n < 5 then numShadowGo fuel (n * 2) else n

/-- `num_shadow` from `XDf::add_shadows`: start at the column count and
double while `< 5`.  The source loops forever on a 0-column dataframe
(modeled as 0); the dataframes considered always have at least one
column. -/
def numShadow (n : Nat) : Nat :=
  if n = 0 then 0 else numShadowGo 3 n

/-- The loop body of `XDf::add_shadows`.  Note that the source column is
`self.data[i % self.data.len()]` where `self.data` GROWS while the loop
runs, so for `i ≥` the original column count the source of shadow `i` is a
previously appended shadow, not an original column. -/
def addShadowsLoop (seed maxSplitid : Nat) (mask : List Nat) :
    Nat → Nat → XDf → XDf
  | _, 0, df => df
  | i, rem + 1, df =>
    addShadowsLoop seed maxSplitid mask (i + 1) rem
      { data := df.data ++
          [permute (df.data.getD (i % df.data.length) []) (newRngShadow seed i) mask]
        idxToSplitid := df.idxToSplitid ++ [maxSplitid + i + 1]
        splitidToIdx := df.splitidToIdx.set (maxSplitid + i + 1) df.idxToSplitid.length }

/-- `XDf::add_shadows(rng_factory)`: compute the full-row-range mask, the
maximal existing split-id and `num_shadow`, resize the inverse map, then
append the shadow columns. -/
def addShadows (seed : Nat) (df : XDf) : XDf :=
  let mask := maskNew (List.range (df.data.headD []).length)
  let maxSplitid := df.idxToSplitid.foldl Nat.max 0
  let num := numShadow df.data.length
  addShadowsLoop seed maxSplitid mask 0 num
    { df with splitidToIdx := listResize df.splitidToIdx (maxSplitid + num + 1) 0 }

theorem getD_append_lt (l l' : List α) (j : Nat) (d : α) (hj : j < l.length) :
    (l ++ l').getD j d = l.getD j d := by
  induction l generalizing j with
  | nil => simp at hj
  | cons x rest ih =>
    cases j with
    | zero => rfl
    | succ j => simpa using ih j (by simpa using hj)

theorem getD_snoc_len (l : List α) (x d : α) : (l ++ [x]).getD l.length d = x := by
  induction l with
  | nil => rfl
  | cons y rest ih => simpa using ih

theorem addShadowsLoop_data_len (seed m : Nat) (mask : List Nat) :
    ∀ rem i df, (addShadowsLoop seed m mask i rem df).data.length = df.data.length + rem := by
  intro rem
  induction rem with
  | zero => intro i df; rfl
  | succ rem ih =>
    intro i df
    rw [addShadowsLoop, ih]
    simp only [List.length_append, List.length_cons, List.length_nil]
    omega

theorem addShadowsLoop_data_front (seed m : Nat) (mask : List Nat) :
    ∀ rem i df j, j < df.data.length →
      (addShadowsLoop seed m mask i rem df).data.getD j [] = df.data.getD j [] := by
  intro rem
  induction rem with
  | zero => intro i df j _; rfl
  | succ rem ih =>
    intro i df j hj
    rw [addShadowsLoop]
    rw [ih _ _ j (by simp; omega)]
    exact getD_append_lt _ _ j [] hj

theorem addShadowsLoop_idx (seed m : Nat) (mask : List Nat) :
    ∀ rem i df, (addShadowsLoop seed m mask i rem df).idxToSplitid =
      df.idxToSplitid ++ (List.range rem).map (fun k => m + (i + k) + 1) := by
  intro rem
  induction rem with
  | zero => intro i df; simp [addShadowsLoop]
  | succ rem ih =>
    intro i df
    rw [addShadowsLoop, ih]
    rw [List.range_succ_eq_map, List.map_cons, List.map_map, List.append_assoc,
      List.cons_append, List.nil_append]
    refine congrArg (df.idxToSplitid ++ ·) ?_
    refine List.cons.injEq .. ▸ ?_
    refine ⟨by omega, ?_⟩
    refine List.map_congr_left (fun a _ => ?_)
    simp only [Function.comp_apply]
    omega

theorem addShadowsLoop_shadows (seed m : Nat) (mask : List Nat) :
    ∀ rem n0 i df, 0 < n0 → df.data.length = n0 + i →
      ∀ k, k < rem →
        (addShadowsLoop seed m mask i rem df).data.getD (n0 + i + k) [] =
          permute ((addShadowsLoop seed m mask i rem df).data.getD (i + k) [])
            (newRngShadow seed (i + k)) mask := by
  intro rem
  induction rem with
  | zero => intro n0 i df _ _ k hk; exact absurd hk (Nat.not_lt_zero k)
  | succ rem ih =>
    intro n0 i df hn0 hlen k hk
    rw [addShadowsLoop]
    cases k with
    | zero =>
      have hi : i % df.data.length = i := Nat.mod_eq_of_lt (by omega)
      rw [addShadowsLoop_data_front _ _ _ rem (i + 1) _ (n0 + i + 0) (by simp; omega)]
      rw [addShadowsLoop_data_front _ _ _ rem (i + 1) _ (i + 0) (by simp; omega)]
      simp only [Nat.add_zero]
      rw [hi]
      have h1 : (df.data ++
          [permute (df.data.getD i []) (newRngShadow seed i) mask]).getD (n0 + i) [] =
          permute (df.data.getD i []) (newRngShadow seed i) mask := by
        have := getD_snoc_len df.data (permute (df.data.getD i []) (newRngShadow seed i) mask) []
        rwa [hlen] at this
      rw [h1]
      congr 1
      exact (getD_append_lt _ _ i [] (by omega)).symm
    | succ k =>
      have e1 : n0 + i + (k + 1) = n0 + (i + 1) + k := by omega
      have e2 : i + (k + 1) = (i + 1) + k := by omega
      rw [e1, e2]
      exact ih n0 (i + 1) _ hn0 (by simp [hlen]; omega) k (by omega)

theorem le_foldl_max (l : List Nat) (a : Nat) :
    (∀ x ∈ l, x ≤ l.foldl Nat.max a) ∧ a ≤ l.foldl Nat.max a := by
  induction l generalizing a with
  | nil => simp
  | cons y rest ih =>
    refine ⟨?_, le_trans (Nat.le_max_left a y) (ih (Nat.max a y)).2⟩
    intro x hx
    rcases List.mem_cons.mp hx with rfl | hx
    · exact le_trans (Nat.le_max_right a x) (ih (Nat.max a x)).2
    · exact (ih (Nat.max a y)).1 x hx


theorem addShadows_eq (seed : Nat) (df : XDf) :
    addShadows seed df =
      addShadowsLoop seed (df.idxToSplitid.foldl Nat.max 0)
        (maskNew (List.range (df.data.headD []).length)) 0 (numShadow df.data.length)
        { df with splitidToIdx := listResize df.splitidToIdx (df.idxToSplitid.foldl Nat.max 0 + numShadow df.data.length + 1) 0 } := rfl

unseal List.merge List.mergeSort in
/-- C7 counterexample: for the one-column dataframe over `[0,1,2,0]` and
shadow seed 0, `num_shadow = 8`, and the shadow appended at iteration 4
is a permuted copy of the column at index 4 of the GROWING column vector —
a previously appended shadow — and differs from the claimed
`data[4 mod current_ncol]` (the original column) permuted with shadow
stream 4. -/
theorem add_shadows_source_counterexample :
    (addShadows 0 (xdfNew [threeValColNew [0, 1, 2, 0]])).data.getD (1 + 4) [] ≠
      permute ((xdfNew [threeValColNew [0, 1, 2, 0]]).data.getD (4 % 1) [])
        (newRngShadow 0 4) (maskNew (List.range 4)) := by
  decide

/-- C7 (amended): for every dataframe with at least one column,
`add_shadows` appends exactly `num_shadow` columns, where `num_shadow`
starts at the column count and doubles until `≥ 5`; the `i`-th appended
column equals column `i` of the GROWN data vector (an original column for
`i < ncol`, the `(i − ncol)`-th appended shadow otherwise) permuted with the
factory's shadow stream `i` over the full row-range mask; the new split-ids
are `max_existing_splitid + 1 + i`; and all split-ids remain distinct
provided they were distinct before. -/
theorem add_shadows_amended (seed : Nat) (df : XDf) (h : 0 < df.data.length) :
    (addShadows seed df).data.length = df.data.length + numShadow df.data.length ∧
    (∀ k < numShadow df.data.length,
      (addShadows seed df).data.getD (df.data.length + k) [] =
        permute ((addShadows seed df).data.getD k [])
          (newRngShadow seed k) (maskNew (List.range (df.data.headD []).length))) ∧
    (addShadows seed df).idxToSplitid =
      df.idxToSplitid ++
        (List.range (numShadow df.data.length)).map
          (fun k => df.idxToSplitid.foldl Nat.max 0 + k + 1) ∧
    (df.idxToSplitid.Nodup → (addShadows seed df).idxToSplitid.Nodup) := by
  have hidxeq : (addShadows seed df).idxToSplitid =
      df.idxToSplitid ++ (List.range (numShadow df.data.length)).map
        (fun k => df.idxToSplitid.foldl Nat.max 0 + k + 1) := by
    rw [addShadows_eq, addShadowsLoop_idx]
    show df.idxToSplitid ++ _ = _
    exact congrArg (df.idxToSplitid ++ ·) (List.map_congr_left (fun a _ => by omega))
  refine ⟨?_, ?_, hidxeq, ?_⟩
  · rw [addShadows_eq, addShadowsLoop_data_len]
  · intro k hk
    rw [addShadows_eq]
    have hs := addShadowsLoop_shadows seed (df.idxToSplitid.foldl Nat.max 0)
      (maskNew (List.range (df.data.headD []).length)) (numShadow df.data.length)
      df.data.length 0
      { df with splitidToIdx := listResize df.splitidToIdx (df.idxToSplitid.foldl Nat.max 0 + numShadow df.data.length + 1) 0 }
      h (by show df.data.length = df.data.length + 0; omega) k hk
    simpa using hs
  · intro hnd
    rw [hidxeq]
    refine List.Nodup.append hnd ?_ ?_
    · refine List.Nodup.map ?_ (List.nodup_range _)
      intro a b hab
      simp only at hab
      omega
    · intro a ha hb
      have hle : a ≤ df.idxToSplitid.foldl Nat.max 0 := (le_foldl_max df.idxToSplitid 0).1 a ha
      obtain ⟨k, _, rfl⟩ := List.mem_map.mp hb
      omega

/-- Witness for C7 (amended) on a concrete two-column dataframe. -/
theorem add_shadows_amended_witness :
    (addShadows 3 (xdfNew [threeValColNew [0, 1], threeValColNew [2, 0]])).idxToSplitid =
      [0, 1] ++ (List.range (numShadow 2)).map (fun k => 1 + k + 1) := by
  have h := (add_shadows_amended 3 (xdfNew [threeValColNew [0, 1], threeValColNew [2, 0]])
    (by decide)).2.2.1
  have h2 : (xdfNew [threeValColNew [0, 1], threeValColNew [2, 0]]).idxToSplitid = [0, 1] := by
    decide
  have h3 : List.foldl Nat.max 0 [0, 1] = 1 := by decide
  have h4 : (xdfNew [threeValColNew [0, 1], threeValColNew [2, 0]]).data.length = 2 := by
    decide
  rw [h2, h3, h4] at h
  exact h


/-! ## Binomial CDF (src/binom.rs) and Boruta (src/boruta.rs)

Boruta's decisions depend on the forest z-scores only through the Boolean
"hit" test `zscores[id] > max_shadow_zscore`, a comparison of f64 values
computed by the forest.  The per-iteration outcome of that test is
abstracted as an oracle `hit : iteration → column → Bool`; everything else
(the hit counting, the binomial tests and the three-set bookkeeping) is
embedded from the source.  `binom_cdf` is evaluated exactly at `p = 1/2`,
the only probability Boruta uses: the source computes the same quantity
`I_{1-p}(n-k, k+1)` through a Lentz continued fraction over f64. -/

/-- `binom_cdf(k, n, 0.5)` evaluated exactly: `1` when `k ≥ n`, otherwise
`Σ_{j ≤ k} C(n, j) / 2^n`. -/
def binomCdfHalf (k n : Nat) : Rat :=
  if n ≤ k then 1 else (((List.range (k + 1)).map (fun j => (n.choose j : Rat))).sum) / 2 ^ n

theorem list_range_map_sum (f : Nat → Rat) (m : Nat) :
    ((List.range m).map f).sum = ∑ j ∈ Finset.range m, f j := by
  induction m with
  | zero => simp
  | succ m ih =>
    rw [List.range_succ, List.map_append, List.sum_append, Finset.sum_range_succ, ih]
    simp

theorem binomCdfHalf_le_one (k n : Nat) : binomCdfHalf k n ≤ 1 := by
  unfold binomCdfHalf
  split
  · exact le_refl 1
  · rename_i hkn
    rw [div_le_one (by positivity), list_range_map_sum]
    have hsub : Finset.range (k + 1) ⊆ Finset.range (n + 1) :=
      Finset.range_subset.mpr (by omega)
    have hs : (∑ j ∈ Finset.range (k + 1), (n.choose j : Rat)) ≤
        ∑ j ∈ Finset.range (n + 1), (n.choose j : Rat) :=
      Finset.sum_le_sum_of_subset_of_nonneg hsub (fun j _ _ => by positivity)
    refine le_trans hs ?_
    have hchoose : ((∑ j ∈ Finset.range (n + 1), n.choose j : Nat) : Rat) = (2 ^ n : Rat) := by
      rw [Nat.sum_range_choose]
      push_cast
      rfl
    rw [← hchoose]
    push_cast
    exact le_refl _

theorem binomCdfHalf_succ_mono (k n : Nat) : binomCdfHalf k n ≤ binomCdfHalf (k + 1) n := by
  by_cases h2 : n ≤ k + 1
  · have h : binomCdfHalf (k + 1) n = 1 := by unfold binomCdfHalf; rw [if_pos h2]
    rw [h]
    exact binomCdfHalf_le_one k n
  · unfold binomCdfHalf
    rw [if_neg (by omega), if_neg h2, list_range_map_sum, list_range_map_sum]
    have hsub : Finset.range (k + 1) ⊆ Finset.range (k + 2) :=
      Finset.range_subset.mpr (by omega)
    have hs : (∑ j ∈ Finset.range (k + 1), (n.choose j : Rat)) ≤
        ∑ j ∈ Finset.range (k + 2), (n.choose j : Rat) :=
      Finset.sum_le_sum_of_subset_of_nonneg hsub (fun j _ _ => by positivity)
    have hpow : (0 : Rat) < 2 ^ n := by positivity
    exact (div_le_div_right hpow).mpr hs

/-- A column cannot satisfy the rejection test and the confirmation test in
the same Boruta iteration when the per-column threshold is at most 1/2: the
binomial CDF is monotone, so both tests together would force
`1 − t < t`. -/
theorem reject_confirm_exclusive (n h : Nat) (t : Rat) (ht : t ≤ 1 / 2) :
    ¬(binomCdfHalf h n < t ∧ 0 < h ∧ 1 - t < binomCdfHalf (h - 1) n) := by
  rintro ⟨hrej, hpos, hconf⟩
  have hmono : binomCdfHalf (h - 1) n ≤ binomCdfHalf h n := by
    have he : h - 1 + 1 = h := by omega
    have := binomCdfHalf_succ_mono (h - 1) n
    rwa [he] at this
  linarith

/-- The three column sets and the hit-count map maintained by `boruta`. -/
structure BorutaState (Col : Type) where
  tentative : List Col
  confirmed : List Col
  rejected : List Col
  hits : Col → Nat

/-- The hit-count update of one iteration: each id in
`tentative ∪ confirmed` whose z-score beats the best shadow z-score (the
oracle `hit`) gains one hit. -/
def stepHits [DecidableEq Col] (hit : Col → Bool) (st : BorutaState Col) : Col → Nat :=
  fun c => if c ∈ st.tentative ++ st.confirmed ∧ hit c then st.hits c + 1 else st.hits c

/-- Ids pushed to `rejected` this iteration:
`binom_cdf(hits, iter, 0.5) < pval_th / |tentative|`. -/
def stepRejected [DecidableEq Col] (pval : Rat) (hit : Col → Bool) (iter : Nat)
    (st : BorutaState Col) : List Col :=
  st.tentative.filter (fun c =>
    decide (binomCdfHalf (stepHits hit st c) iter < pval / st.tentative.length))

/-- Ids pushed to `confirmed` this iteration: `hits > 0` and
`binom_cdf(hits − 1, iter, 0.5) > 1 − pval_th / |tentative|`.  The source
checks this independently of the rejection test (no `else`). -/
def stepConfirmed [DecidableEq Col] (pval : Rat) (hit : Col → Bool) (iter : Nat)
    (st : BorutaState Col) : List Col :=
  st.tentative.filter (fun c =>
    decide (0 < stepHits hit st c ∧
      1 - pval / st.tentative.length < binomCdfHalf (stepHits hit st c - 1) iter))

/-- One iteration of the Boruta loop body: update the hit counts, push to
`rejected` and `confirmed`, and recompute `tentative` as the set difference
(the source goes through `HashSet`s whose iteration order is immaterial
here; the filter keeps the tentative order). -/
def borutaStep [DecidableEq Col] (pval : Rat) (hit : Col → Bool) (iter : Nat)
    (st : BorutaState Col) : BorutaState Col :=
  { tentative := st.tentative.filter (fun c =>
      decide (c ∉ stepRejected pval hit iter st ∧ c ∉ stepConfirmed pval hit iter st))
    confirmed := st.confirmed ++ stepConfirmed pval hit iter st
    rejected := st.rejected ++ stepRejected pval hit iter st
    hits := stepHits hit st }

/-- The Boruta driver loop: up to `max_runs` iterations (fuel), stopping
when `tentative` is empty; iterations are numbered from 1. -/
def borutaLoop [DecidableEq Col] (pval : Rat) (hit : Nat → Col → Bool) :
    Nat → Nat → BorutaState Col → BorutaState Col
  | 0, _, st => st
  | fuel + 1, iter, st =>
    if st.tentative.length = 0 then st
    else borutaLoop pval hit fuel (iter + 1) (borutaStep pval (hit (iter + 1)) (iter + 1) st)

/-- `boruta(df, y, pval_th, max_runs, ntree)` with the forest z-score
comparison abstracted as the oracle `hit`: `tentative` starts as all column
ids, `confirmed` and `rejected` start empty, all hit counts start at 0. -/
def boruta [DecidableEq Col] (pval : Rat) (maxRuns : Nat) (hit : Nat → Col → Bool)
    (cols : List Col) : BorutaState Col :=
  borutaLoop pval hit maxRuns 0
    { tentative := cols, confirmed := [], rejected := [], hits := fun _ => 0 }

/-- No id is in more than one of the three sets. -/
def pairwiseDisjoint (st : BorutaState Col) : Prop :=
  (∀ c, c ∈ st.tentative → c ∉ st.confirmed) ∧
  (∀ c, c ∈ st.tentative → c ∉ st.rejected) ∧
  (∀ c, c ∈ st.confirmed → c ∉ st.rejected)

theorem borutaStep_disjoint [DecidableEq Col] (pval : Rat) (hit : Col → Bool) (iter : Nat)
    (st : BorutaState Col) (hp0 : 0 ≤ pval) (hp : pval ≤ 1 / 2)
    (hd : pairwiseDisjoint st) : pairwiseDisjoint (borutaStep pval hit iter st) := by
  obtain ⟨h1, h2, h3⟩ := hd
  have hrejsub : ∀ c, c ∈ stepRejected pval hit iter st → c ∈ st.tentative :=
    fun c hc => (List.mem_filter.mp hc).1
  have hconfsub : ∀ c, c ∈ stepConfirmed pval hit iter st → c ∈ st.tentative :=
    fun c hc => (List.mem_filter.mp hc).1
  refine ⟨?_, ?_, ?_⟩
  · intro c hc hcc
    obtain ⟨hct, hcond⟩ := List.mem_filter.mp hc
    rw [decide_eq_true_eq] at hcond
    rcases List.mem_append.mp hcc with hcc | hcc
    · exact h1 c hct hcc
    · exact hcond.2 hcc
  · intro c hc hcr
    obtain ⟨hct, hcond⟩ := List.mem_filter.mp hc
    rw [decide_eq_true_eq] at hcond
    rcases List.mem_append.mp hcr with hcr | hcr
    · exact h2 c hct hcr
    · exact hcond.1 hcr
  · intro c hc hcr
    rcases List.mem_append.mp hc with hcc | hcc <;>
      rcases List.mem_append.mp hcr with hcr2 | hcr2
    · exact h3 c hcc hcr2
    · exact h1 c (hrejsub c hcr2) hcc
    · exact h2 c (hconfsub c hcc) hcr2
    · obtain ⟨hct, hcondc⟩ := List.mem_filter.mp hcc
      obtain ⟨_, hcondr⟩ := List.mem_filter.mp hcr2
      rw [decide_eq_true_eq] at hcondc hcondr
      have hlen : (1 : Rat) ≤ (st.tentative.length : Rat) := by
        have : 0 < st.tentative.length := List.length_pos.mpr (by
          intro hnil
          rw [hnil] at hct
          exact absurd hct (List.not_mem_nil c))
        exact_mod_cast this
      have ht : pval / st.tentative.length ≤ 1 / 2 :=
        le_trans (div_le_self hp0 hlen) hp
      exact reject_confirm_exclusive iter (stepHits hit st c)
        (pval / st.tentative.length) ht ⟨hcondr, hcondc.1, hcondc.2⟩

theorem borutaLoop_disjoint [DecidableEq Col] (pval : Rat) (hit : Nat → Col → Bool)
    (hp0 : 0 ≤ pval) (hp : pval ≤ 1 / 2) :
    ∀ fuel iter (st : BorutaState Col), pairwiseDisjoint st →
      pairwiseDisjoint (borutaLoop pval hit fuel iter st) := by
  intro fuel
  induction fuel with
  | zero => intro iter st hd; exact hd
  | succ fuel ih =>
    intro iter st hd
    rw [borutaLoop]
    split
    · exact hd
    · exact ih (iter + 1) _ (borutaStep_disjoint pval (hit (iter + 1)) (iter + 1) st hp0 hp hd)


/-- C9 counterexample: the rejection and confirmation pushes are not
exclusive.  With a single column, `pval_threshold = 6/5` and a hit in the
first iteration, `binom_cdf(1,1,0.5) = 1 < 6/5` pushes the column to
`rejected` while `binom_cdf(0,1,0.5) = 1/2 > 1 − 6/5` simultaneously pushes
it to `confirmed`: the returned `confirmed` and `rejected` vectors share the
column. -/
theorem boruta_disjointness_counterexample :
    0 ∈ (boruta (6 / 5 : Rat) 1 (fun _ _ => true) [0]).confirmed ∧
    0 ∈ (boruta (6 / 5 : Rat) 1 (fun _ _ => true) [0]).rejected := by
  have hb : boruta (6 / 5 : Rat) 1 (fun _ _ => true) [0] =
      borutaStep (6 / 5 : Rat) (fun _ => true) 1
        { tentative := [0], confirmed := [], rejected := [], hits := fun _ => 0 } := rfl
  have hhits : stepHits (fun _ => true)
      { tentative := [0], confirmed := [], rejected := [], hits := fun _ => 0 } 0 = 1 := rfl
  rw [hb]
  constructor
  · show 0 ∈ ([] : List Nat) ++ stepConfirmed (6 / 5 : Rat) (fun _ => true) 1
      { tentative := [0], confirmed := [], rejected := [], hits := fun _ => 0 }
    rw [List.nil_append]
    unfold stepConfirmed
    refine List.mem_filter.mpr ⟨List.mem_singleton.mpr rfl, ?_⟩
    rw [decide_eq_true_eq, hhits]
    constructor
    · omega
    · norm_num [binomCdfHalf, List.range_succ, List.range_zero]
  · show 0 ∈ ([] : List Nat) ++ stepRejected (6 / 5 : Rat) (fun _ => true) 1
      { tentative := [0], confirmed := [], rejected := [], hits := fun _ => 0 }
    rw [List.nil_append]
    unfold stepRejected
    refine List.mem_filter.mpr ⟨List.mem_singleton.mpr rfl, ?_⟩
    rw [decide_eq_true_eq, hhits]
    norm_num [binomCdfHalf]

/-- C9 (amended): provided the threshold satisfies `0 ≤ pval_threshold ≤
1/2` (which covers every p-value actually used; the division by
`|tentative|` only shrinks it), the three column sets maintained by
`boruta` are pairwise disjoint after every loop iteration — the step
function preserves pairwise disjointness — and therefore also in the
returned result, for every hit oracle (i.e. for every outcome of the
forest z-score comparisons), every initial column list and every
`max_runs`. -/
theorem boruta_states_pairwise_disjoint {Col : Type} [DecidableEq Col] (pval : Rat)
    (maxRuns : Nat) (hit : Nat → Col → Bool) (cols : List Col)
    (hp0 : 0 ≤ pval) (hp : pval ≤ 1 / 2) :
    (∀ (h : Col → Bool) (iter : Nat) (st : BorutaState Col), pairwiseDisjoint st →
      pairwiseDisjoint (borutaStep pval h iter st)) ∧
    pairwiseDisjoint (boruta pval maxRuns hit cols) := by
  refine ⟨fun h iter st hd => borutaStep_disjoint pval h iter st hp0 hp hd, ?_⟩
  refine borutaLoop_disjoint pval hit hp0 hp maxRuns 0 _ ?_
  refine ⟨?_, ?_, ?_⟩ <;> intro c hc hf <;> exact absurd hf (List.not_mem_nil c)

/-- Witness for C9 (amended) at a concrete run. -/
theorem boruta_states_pairwise_disjoint_witness :
    pairwiseDisjoint (boruta (1 / 100 : Rat) 3 (fun _ c => c == 0) [0, 1, 2]) :=
  (boruta_states_pairwise_disjoint (1 / 100 : Rat) 3 (fun _ c => c == 0) [0, 1, 2]
    (by norm_num) (by norm_num)).2


/-! ## Tree (src/tree.rs)

The arena-based tree and its two prediction paths, specialized to the
concrete dataframe `XDf` (the only `DataInterface` implementation).  Nodes
are stored in a flat vector in post-order; children precede parents.  The
caches are exactly the five structures of the source; `split_mask_map` (a
`HashMap<SplitColId, Vec<usize>>`) is modeled as a total function defaulting
to `[]`, which is behaviorally identical because the source treats an absent
key like an empty occurrence list.  Recursion over the arena follows child
indices, so the code embeddings carry a fuel argument; `t.length` is enough
fuel for every well-formed arena. -/

/-- `ColSplitIndex`: the split descriptor stored at a `Split` node.  The
`shadow` flag is marked `TODO remove` in the source and only feeds the dead
`shadow_rng` path of `split_with_pivot`. -/
structure ColSplitIndex where
  col_id : Nat
  pivot : ThreeValPivot
  shadow : Bool
deriving DecidableEq, Repr

/-- `SplitColId`: the column identifier exposed by `get_col_id`. -/
structure SplitColId where
  col_id : Nat
  shadow : Bool
deriving DecidableEq, Repr

def ColSplitIndex.getColId (s : ColSplitIndex) : SplitColId :=
  ⟨s.col_id, s.shadow⟩

inductive Node (Y : Type) where
  | Sp (split_index : ColSplitIndex) (l r : Nat)
  | Lf (c : Y)
deriving DecidableEq, Repr

instance [Inhabited Y] : Inhabited (Node Y) := ⟨.Lf default⟩

/-- `XDf::make_split`: resolve the physical column through the split-id map
unless a replacement column is given, then `split_with_pivot`.  The
`shadow_rng` the source builds from `idx.shadow` is ignored by
`split_with_pivot` (dead code) and is elided.  Out-of-range map lookups
panic in the source; the model uses defaults. -/
def makeSplit (df : XDf) (idx : ColSplitIndex) (mask : List Nat)
    (permutedVec : Option (List ThreeVal)) : List Nat × List Nat :=
  match permutedVec with
  | some pv => splitWithPivot pv mask idx.pivot
  | none =>
    splitWithPivot (df.data.getD (df.splitidToIdx.getD idx.col_id 0) []) mask idx.pivot

/-- `XDf::permute_index`: a fresh column equal to the original with the
masked rows permuted by the factory's permutation stream for
`(tree, column)`. -/
def permuteIndex (df : XDf) (colId : SplitColId) (seed ncol ntree ithTree : Nat)
    (oobMask : List Nat) : List ThreeVal :=
  permute (df.data.getD (df.splitidToIdx.getD colId.col_id 0) [])
    (newRngPermutation seed ncol ntree ithTree colId.col_id) oobMask

/-- The dataframe in which the physical column of split-id `c` has been
replaced by `pvec` — the "column-permuted DataFrame" of the spec. -/
def dfWithPermuted (df : XDf) (c : Nat) (pvec : List ThreeVal) : XDf :=
  { df with data := df.data.set (df.splitidToIdx.getD c 0) pvec }

/-- The five per-tree caches, write-once during the first prediction pass. -/
structure TreeCaches (Y : Type) where
  mask_cache : List (List Nat)
  preds_cache : List (Y × Nat)
  preds_cache_range : List (Nat × Nat)
  split_idx_cache_range : List (Nat × Nat)
  split_mask_map : SplitColId → List Nat

def emptyCaches (Y : Type) : TreeCaches Y :=
  { mask_cache := []
    preds_cache := []
    preds_cache_range := []
    split_idx_cache_range := []
    split_mask_map := fun _ => [] }

/-- The leaf write loop: `preds[mask_ranks[i]] = Some(class)` for every
masked row `i`. -/
def writeLeaf (preds : List (Option Y)) (mask ranks : List Nat) (c : Y) : List (Option Y) :=
  mask.foldl (fun acc i => acc.set (ranks.getD i 0) (some c)) preds

/-- Applying a list of `(class, position)` writes in order (the common core
of leaf writes and cache replay). -/
def foldWrites (ws : List (Y × Nat)) (preds : List (Option Y)) : List (Option Y) :=
  ws.foldl (fun acc p => acc.set p.2 (some p.1)) preds

/-- `Tree::_predict_write_cache`: the first prediction pass; returns the
post-order split counter, the extended caches and the written prediction
vector. -/
def predsWrite [Inhabited Y] (t : List (Node Y)) (df : XDf) (ranks : List Nat) :
    Nat → List Nat → Nat → TreeCaches Y → List (Option Y) → Nat →
    Nat × TreeCaches Y × List (Option Y)
  | 0, _, _, st, preds, cnt => (cnt, st, preds)
  | fuel + 1, mask, nid, st, preds, cnt =>
    match t.getD nid default with
    | .Lf c =>
      (cnt,
       { st with
         mask_cache := st.mask_cache ++ [mask]
         preds_cache_range := st.preds_cache_range ++
           [(st.preds_cache.length, st.preds_cache.length + mask.length)]
         preds_cache := st.preds_cache ++ mask.map (fun i => (c, ranks.getD i 0))
         split_idx_cache_range := st.split_idx_cache_range ++ [(cnt, cnt)] },
       writeLeaf preds mask ranks c)
    | .Sp sidx l r =>
      let masks := makeSplit df sidx mask none
      let plen0 := st.preds_cache.length
      let res1 := predsWrite t df ranks fuel masks.1 l st preds cnt
      let res2 := predsWrite t df ranks fuel masks.2 r res1.2.1 res1.2.2 res1.1
      (res2.1 + 1,
       { res2.2.1 with
         mask_cache := res2.2.1.mask_cache ++ [mask]
         split_idx_cache_range := res2.2.1.split_idx_cache_range ++ [(cnt, res2.1)]
         preds_cache_range := res2.2.1.preds_cache_range ++
           [(plen0, res2.2.1.preds_cache.length)]
         split_mask_map := fun k =>
           if k = sidx.getColId then res2.2.1.split_mask_map k ++ [res2.1]
           else res2.2.1.split_mask_map k },
       res2.2.2)

/-- `Tree::_preds_read_cache`: at a cached split node whose subtree contains
no occurrence of the permuted column (checked through `split_mask_map` and
the post-order ranges), replay the cached `(class, position)` pairs into the
prediction vector and report success. -/
def predsReadCache [Inhabited Y] (t : List (Node Y)) (st : TreeCaches Y) (nid : Nat)
    (pcol : SplitColId) (preds : List (Option Y)) : Bool × List (Option Y) :=
  match t.getD nid default with
  | .Lf _ => (false, preds)
  | .Sp _ _ _ =>
    let range := st.split_idx_cache_range.getD nid (0, 0)
    if (st.split_mask_map pcol).any (fun idx => decide (range.1 ≤ idx ∧ idx ≤ range.2)) then
      (false, preds)
    else
      let prange := st.preds_cache_range.getD nid (0, 0)
      if prange.1 < st.preds_cache.length then
        (true, foldWrites ((st.preds_cache.drop prange.1).take (prange.2 - prange.1)) preds)
      else (false, preds)

/-- `Tree::_predict`: the permuted pass.  `pcol` is the permuted column id
(always present on this path), `pvec` the permuted column.  At an unaltered,
unpermuted split the child masks are replayed from `mask_cache`; descent
into a child first consults `_preds_read_cache` unless the subtree is
already altered or permuted at this node (the source short-circuits
`permute || altered || !read_cache`). -/
def predictRec [Inhabited Y] (t : List (Node Y)) (df : XDf) (st : TreeCaches Y)
    (pcol : SplitColId) (pvec : List ThreeVal) (ranks : List Nat) :
    Nat → List Nat → Nat → Bool → List (Option Y) → List (Option Y)
  | 0, _, _, _, preds => preds
  | fuel + 1, mask, nid, altered, preds =>
    match t.getD nid default with
    | .Lf c => writeLeaf preds mask ranks c
    | .Sp sidx l r =>
      let perm : Bool := pcol = sidx.getColId
      let masks :=
        if 0 < st.mask_cache.length ∧ ¬perm ∧ ¬altered then
          (st.mask_cache.getD l [], st.mask_cache.getD r [])
        else makeSplit df sidx mask (if perm then some pvec else none)
      let preds1 :=
        if perm ∨ altered then
          predictRec t df st pcol pvec ranks fuel masks.1 l (altered || perm) preds
        else
          let rc := predsReadCache t st l pcol preds
          if rc.1 then rc.2
          else predictRec t df st pcol pvec ranks fuel masks.1 l (altered || perm) rc.2
      if perm ∨ altered then
        predictRec t df st pcol pvec ranks fuel masks.2 r (altered || perm) preds1
      else
        let rc := predsReadCache t st r pcol preds1
        if rc.1 then rc.2
        else predictRec t df st pcol pvec ranks fuel masks.2 r (altered || perm) rc.2

/-- `Tree::predict` with `permuted_col = None` on a fresh tree: run the
cache-writing pass from the root (the last arena node) over a `None`-filled
vector. -/
def predictFirst [Inhabited Y] (t : List (Node Y)) (df : XDf) (mask ranks : List Nat) :
    TreeCaches Y × List (Option Y) :=
  let res := predsWrite t df ranks t.length mask (t.length - 1)
    (emptyCaches Y) (List.replicate mask.length none) 0
  (res.2.1, res.2.2)

/-- `Tree::predict` with `permuted_col = Some pcol` after the caches were
populated: permute the column on the mask with the factory's permutation
stream and run the cached permuted pass from the root. -/
def predictPermuted [Inhabited Y] (t : List (Node Y)) (df : XDf) (st : TreeCaches Y)
    (seed ncol ntree ithTree : Nat) (mask ranks : List Nat) (pcol : SplitColId) :
    List (Option Y) :=
  let pvec := permuteIndex df pcol seed ncol ntree ithTree mask
  predictRec t df st pcol pvec ranks t.length mask (t.length - 1) false
    (List.replicate mask.length none)

/-- Spec-side definition (the claim's "from-scratch uncached tree walk"):
split at every node with the given dataframe's column and write each leaf
class at the mask-rank positions of its mask. -/
def plainPredict [Inhabited Y] (t : List (Node Y)) (df : XDf) (ranks : List Nat) :
    Nat → List Nat → Nat → List (Option Y) → List (Option Y)
  | 0, _, _, preds => preds
  | fuel + 1, mask, nid, preds =>
    match t.getD nid default with
    | .Lf c => writeLeaf preds mask ranks c
    | .Sp sidx l r =>
      let masks := makeSplit df sidx mask none
      plainPredict t df ranks fuel masks.2 r (plainPredict t df ranks fuel masks.1 l preds)

/-! Specification functions describing the first pass per subtree: the
number of splits, the concatenated leaf writes, and the cache entries
contributed in arena order. -/

def fpCount [Inhabited Y] (t : List (Node Y)) (df : XDf) : Nat → Nat → List Nat → Nat
  | 0, _, _ => 0
  | fuel + 1, nid, mask =>
    match t.getD nid default with
    | .Lf _ => 0
    | .Sp sidx l r =>
      let masks := makeSplit df sidx mask none
      fpCount t df fuel l masks.1 + fpCount t df fuel r masks.2 + 1

def fpWrites [Inhabited Y] (t : List (Node Y)) (df : XDf) (ranks : List Nat) :
    Nat → Nat → List Nat → List (Y × Nat)
  | 0, _, _ => []
  | fuel + 1, nid, mask =>
    match t.getD nid default with
    | .Lf c => mask.map (fun i => (c, ranks.getD i 0))
    | .Sp sidx l r =>
      let masks := makeSplit df sidx mask none
      fpWrites t df ranks fuel l masks.1 ++ fpWrites t df ranks fuel r masks.2

def fpMasks [Inhabited Y] (t : List (Node Y)) (df : XDf) :
    Nat → Nat → List Nat → List (List Nat)
  | 0, _, _ => []
  | fuel + 1, nid, mask =>
    match t.getD nid default with
    | .Lf _ => [mask]
    | .Sp sidx l r =>
      let masks := makeSplit df sidx mask none
      fpMasks t df fuel l masks.1 ++ fpMasks t df fuel r masks.2 ++ [mask]

def fpPredsRanges [Inhabited Y] (t : List (Node Y)) (df : XDf) (ranks : List Nat) :
    Nat → Nat → List Nat → Nat → List (Nat × Nat)
  | 0, _, _, _ => []
  | fuel + 1, nid, mask, off =>
    match t.getD nid default with
    | .Lf _ => [(off, off + mask.length)]
    | .Sp sidx l r =>
      let masks := makeSplit df sidx mask none
      fpPredsRanges t df ranks fuel l masks.1 off ++
      fpPredsRanges t df ranks fuel r masks.2
        (off + (fpWrites t df ranks fuel l masks.1).length) ++
      [(off, off + (fpWrites t df ranks fuel l masks.1).length +
        (fpWrites t df ranks fuel r masks.2).length)]

def fpSplitRanges [Inhabited Y] (t : List (Node Y)) (df : XDf) :
    Nat → Nat → List Nat → Nat → List (Nat × Nat)
  | 0, _, _, _ => []
  | fuel + 1, nid, mask, cnt =>
    match t.getD nid default with
    | .Lf _ => [(cnt, cnt)]
    | .Sp sidx l r =>
      let masks := makeSplit df sidx mask none
      fpSplitRanges t df fuel l masks.1 cnt ++
      fpSplitRanges t df fuel r masks.2 (cnt + fpCount t df fuel l masks.1) ++
      [(cnt, cnt + fpCount t df fuel l masks.1 + fpCount t df fuel r masks.2)]

def fpOcc [Inhabited Y] (t : List (Node Y)) (df : XDf) (k : SplitColId) :
    Nat → Nat → List Nat → Nat → List Nat
  | 0, _, _, _ => []
  | fuel + 1, nid, mask, cnt =>
    match t.getD nid default with
    | .Lf _ => []
    | .Sp sidx l r =>
      let masks := makeSplit df sidx mask none
      fpOcc t df k fuel l masks.1 cnt ++
      fpOcc t df k fuel r masks.2 (cnt + fpCount t df fuel l masks.1) ++
      (if sidx.getColId = k then
        [cnt + fpCount t df fuel l masks.1 + fpCount t df fuel r masks.2]
      else [])

/-- Post-order well-formedness of a built arena: a subtree occupies exactly
the contiguous index range `[lo, nid]`; a split's right child is `nid − 1`,
its left child ends the left subtree, and children strictly precede the
parent.  `Tree::_build_tree` produces arenas of exactly this shape. -/
inductive Wf [Inhabited Y] (t : List (Node Y)) : Nat → Nat → Prop where
  | leaf (lo : Nat) (c : Y) : lo < t.length → t.getD lo default = .Lf c → Wf t lo lo
  | split (lo l r nid : Nat) (sidx : ColSplitIndex) :
      nid < t.length → t.getD nid default = .Sp sidx l r → r = nid - 1 → lo ≤ l → l < r →
      Wf t lo l → Wf t (l + 1) r → Wf t lo nid


theorem writeLeaf_eq_foldWrites [Inhabited Y] (preds : List (Option Y)) (mask ranks : List Nat)
    (c : Y) :
    writeLeaf preds mask ranks c = foldWrites (mask.map (fun i => (c, ranks.getD i 0))) preds := by
  unfold writeLeaf foldWrites
  rw [List.foldl_map]

theorem foldWrites_append [Inhabited Y] (ws1 ws2 : List (Y × Nat)) (preds : List (Option Y)) :
    foldWrites (ws1 ++ ws2) preds = foldWrites ws2 (foldWrites ws1 preds) := by
  unfold foldWrites
  rw [List.foldl_append]

/-- The from-scratch walk is exactly the fold of the subtree's leaf
writes. -/
theorem plainPredict_eq_foldWrites [Inhabited Y] (t : List (Node Y)) (df : XDf)
    (ranks : List Nat) :
    ∀ fuel mask nid preds, plainPredict t df ranks fuel mask nid preds =
      foldWrites (fpWrites t df ranks fuel nid mask) preds := by
  intro fuel
  induction fuel with
  | zero => intro mask nid preds; rfl
  | succ fuel ih =>
    intro mask nid preds
    cases h : t.getD nid default with
    | Lf c =>
      simp only [plainPredict, fpWrites, h]
      exact writeLeaf_eq_foldWrites preds mask ranks c
    | Sp sidx l r =>
      simp only [plainPredict, fpWrites, h, ih]
      rw [foldWrites_append]

/-- Characterization of the first pass: it returns the counter advanced by
the subtree's split count, appends each cache's subtree contribution, and
writes the subtree's leaf writes into the prediction vector. -/
theorem predsWrite_spec [Inhabited Y] (t : List (Node Y)) (df : XDf) (ranks : List Nat) :
    ∀ fuel mask nid (st : TreeCaches Y) preds cnt,
      predsWrite t df ranks fuel mask nid st preds cnt =
        (cnt + fpCount t df fuel nid mask,
         { mask_cache := st.mask_cache ++ fpMasks t df fuel nid mask
           preds_cache := st.preds_cache ++ fpWrites t df ranks fuel nid mask
           preds_cache_range := st.preds_cache_range ++
             fpPredsRanges t df ranks fuel nid mask st.preds_cache.length
           split_idx_cache_range := st.split_idx_cache_range ++
             fpSplitRanges t df fuel nid mask cnt
           split_mask_map := fun k => st.split_mask_map k ++ fpOcc t df k fuel nid mask cnt },
         foldWrites (fpWrites t df ranks fuel nid mask) preds) := by
  intro fuel
  induction fuel with
  | zero =>
    intro mask nid st preds cnt
    show (cnt, st, preds) = _
    simp only [fpCount, fpMasks, fpWrites, fpPredsRanges, fpSplitRanges, fpOcc,
      List.append_nil, Nat.add_zero, foldWrites, List.foldl_nil]
  | succ fuel ih =>
    intro mask nid st preds cnt
    cases h : t.getD nid default with
    | Lf c =>
      simp only [predsWrite, fpCount, fpMasks, fpWrites, fpPredsRanges, fpSplitRanges,
        fpOcc, h, Nat.add_zero, List.append_nil]
      refine congrArg₂ Prod.mk rfl (congrArg₂ Prod.mk ?_ ?_)
      · rfl
      · exact writeLeaf_eq_foldWrites preds mask ranks c
    | Sp sidx l r =>
      simp only [predsWrite, fpCount, fpMasks, fpWrites, fpPredsRanges, fpSplitRanges,
        fpOcc, h, ih]
      refine congrArg₂ Prod.mk (by omega) (congrArg₂ Prod.mk ?_ ?_)
      · simp only [TreeCaches.mk.injEq]
        refine ⟨?_, ?_, ?_, ?_, ?_⟩
        · simp [List.append_assoc]
        · simp [List.append_assoc]
        · simp [List.append_assoc, List.length_append, Nat.add_assoc]
        · simp [List.append_assoc]
        · funext k
          by_cases hk : k = sidx.getColId
          · simp [hk, List.append_assoc]
          · simp [hk, Ne.symm hk, List.append_assoc]
      · rw [foldWrites_append]

theorem getD_drop (xs : List α) (a j : Nat) (d : α) :
    (xs.drop a).getD j d = xs.getD (a + j) d := by
  induction a generalizing xs with
  | zero => simp
  | succ a ih =>
    cases xs with
    | nil => simp [List.drop_nil]
    | cons x rest =>
      have he : a + 1 + j = (a + j) + 1 := by omega
      rw [List.drop_succ_cons, he, List.getD_cons_succ, ih rest]

theorem getD_append_right (l l' : List α) (j : Nat) (d : α) :
    (l ++ l').getD (l.length + j) d = l'.getD j d := by
  induction l with
  | nil => simp
  | cons x rest ih =>
    have he : (x :: rest).length + j = (rest.length + j) + 1 := by simp; omega
    rw [List.cons_append, he, List.getD_cons_succ, ih]

theorem take_append_len (l l' : List α) : (l ++ l').take l.length = l := by
  induction l with
  | nil => rfl
  | cons x rest ih => simpa using ih

theorem drop_append_len (l l' : List α) : (l ++ l').drop l.length = l' := by
  induction l with
  | nil => rfl
  | cons x rest ih => simpa using ih

theorem getD_set_ne (l : List α) (p q : Nat) (x : α) (d : α) (h : p ≠ q) :
    (l.set p x).getD q d = l.getD q d := by
  induction l generalizing p q with
  | nil => rfl
  | cons y rest ih =>
    cases p with
    | zero =>
      cases q with
      | zero => exact absurd rfl h
      | succ q => rfl
    | succ p =>
      cases q with
      | zero => rfl
      | succ q => simpa using ih p q (by omega)

theorem getD_set_self (l : List α) (p : Nat) (x : α) (d : α) (h : p < l.length) :
    (l.set p x).getD p d = x := by
  induction l generalizing p with
  | nil => simp at h
  | cons y rest ih =>
    cases p with
    | zero => rfl
    | succ p => simpa using ih p (by simpa using h)

/-- The size of a well-formed subtree is its index span. -/
theorem fp_lengths [Inhabited Y] (t : List (Node Y)) (df : XDf) (ranks : List Nat) :
    ∀ fuel lo v m poff cnt, Wf t lo v → v - lo + 1 ≤ fuel →
      (fpMasks t df fuel v m).length = v - lo + 1 ∧
      (fpPredsRanges t df ranks fuel v m poff).length = v - lo + 1 ∧
      (fpSplitRanges t df fuel v m cnt).length = v - lo + 1 := by
  intro fuel
  induction fuel with
  | zero => intro lo v m poff cnt hwf hsz; omega
  | succ fuel ih =>
    intro lo v m poff cnt hwf hsz
    cases hwf with
    | leaf lo c hlt hnode =>
      simp only [fpMasks, fpPredsRanges, fpSplitRanges, hnode]
      simp
    | split lo l r nid sidx hlt hnode hr hlol hlr hwl hwr =>
      have ihl := ih lo l (makeSplit df sidx m none).1 poff cnt hwl (by omega)
      have ihr := ih (l + 1) r (makeSplit df sidx m none).2
        (poff + (fpWrites t df ranks fuel l (makeSplit df sidx m none).1).length)
        (cnt + fpCount t df fuel l (makeSplit df sidx m none).1) hwr (by omega)
      simp only [fpMasks, fpPredsRanges, fpSplitRanges, hnode, List.length_append,
        List.length_cons, List.length_nil]
      omega

/-- Reading the last element of a doubly-appended snoc list. -/
theorem getD_snoc_total (A B : List α) (x d : α) :
    (A ++ B ++ [x]).getD (A.length + B.length) d = x := by
  have he : A.length + B.length = (A ++ B).length + 0 := by simp
  rw [he, getD_append_right]
  rfl

/-- The last entry of each per-subtree cache list is the root node's own entry:
its mask, its preds-cache range, and its (inclusive) split-counter range,
exactly as `_predict_write_cache` pushes them after both recursive calls. -/
theorem fp_root_entries [Inhabited Y] (t : List (Node Y)) (df : XDf) (ranks : List Nat)
    (fuel lo v : Nat) (m : List Nat) (poff cnt : Nat)
    (hwf : Wf t lo v) (hsz : v - lo + 1 ≤ fuel) :
    (fpMasks t df fuel v m).getD (v - lo) [] = m ∧
    (fpPredsRanges t df ranks fuel v m poff).getD (v - lo) (0, 0) =
      (poff, poff + (fpWrites t df ranks fuel v m).length) ∧
    (∀ c, t.getD v default = Node.Lf c →
      (fpSplitRanges t df fuel v m cnt).getD (v - lo) (0, 0) = (cnt, cnt)) ∧
    (∀ sidx l r, t.getD v default = Node.Sp sidx l r →
      (fpSplitRanges t df fuel v m cnt).getD (v - lo) (0, 0) =
        (cnt, cnt + fpCount t df fuel v m - 1)) := by
  obtain ⟨fuel, rfl⟩ : ∃ f, fuel = f + 1 := ⟨fuel - 1, by omega⟩
  cases hwf with
  | leaf lo c hlt hnode =>
    refine ⟨?_, ?_, ?_, ?_⟩
    · simp only [fpMasks, hnode]
      simp
    · simp only [fpPredsRanges, fpWrites, hnode]
      simp
    · intro c hc
      simp only [fpSplitRanges, hnode]
      simp
    · intro sidx l r hsp
      rw [hnode] at hsp
      simp at hsp
  | split lo l r nid sidx hlt hnode hr hlol hlr hwl hwr =>
    obtain ⟨hl1, hl2, hl3⟩ := fp_lengths t df ranks fuel lo l (makeSplit df sidx m none).1
      poff cnt hwl (by omega)
    obtain ⟨hr1, hr2, hr3⟩ := fp_lengths t df ranks fuel (l + 1) r
      (makeSplit df sidx m none).2
      (poff + (fpWrites t df ranks fuel l (makeSplit df sidx m none).1).length)
      (cnt + fpCount t df fuel l (makeSplit df sidx m none).1) hwr (by omega)
    have hpos : v - lo = (l - lo + 1) + (r - (l + 1) + 1) := by omega
    refine ⟨?_, ?_, ?_, ?_⟩
    · simp only [fpMasks, hnode]
      have h0 := getD_snoc_total (fpMasks t df fuel l (makeSplit df sidx m none).1)
        (fpMasks t df fuel r (makeSplit df sidx m none).2) m ([] : List Nat)
      rw [hl1, hr1] at h0
      rw [hpos]
      exact h0
    · simp only [fpPredsRanges, hnode]
      have h0 := getD_snoc_total
        (fpPredsRanges t df ranks fuel l (makeSplit df sidx m none).1 poff)
        (fpPredsRanges t df ranks fuel r (makeSplit df sidx m none).2
          (poff + (fpWrites t df ranks fuel l (makeSplit df sidx m none).1).length))
        (poff, poff + (fpWrites t df ranks fuel l (makeSplit df sidx m none).1).length +
          (fpWrites t df ranks fuel r (makeSplit df sidx m none).2).length)
        ((0, 0) : Nat × Nat)
      rw [hl2, hr2] at h0
      rw [hpos, h0]
      simp only [fpWrites, hnode, List.length_append, Prod.mk.injEq, true_and]
      omega
    · intro c hc
      rw [hnode] at hc
      simp at hc
    · intro sidx2 l2 r2 hsp
      simp only [fpSplitRanges, hnode]
      have h0 := getD_snoc_total
        (fpSplitRanges t df fuel l (makeSplit df sidx m none).1 cnt)
        (fpSplitRanges t df fuel r (makeSplit df sidx m none).2
          (cnt + fpCount t df fuel l (makeSplit df sidx m none).1))
        (cnt, cnt + fpCount t df fuel l (makeSplit df sidx m none).1 +
          fpCount t df fuel r (makeSplit df sidx m none).2)
        ((0, 0) : Nat × Nat)
      rw [hl3, hr3] at h0
      rw [hpos, h0]
      simp only [fpCount, hnode, Prod.mk.injEq, true_and]
      omega

/-- Every split-counter recorded in `fpOcc` for a subtree lies in the
half-open counter interval the subtree consumes. -/
theorem fpOcc_range [Inhabited Y] (t : List (Node Y)) (df : XDf) (k : SplitColId) :
    ∀ fuel v m cnt x, x ∈ fpOcc t df k fuel v m cnt →
      cnt ≤ x ∧ x < cnt + fpCount t df fuel v m := by
  intro fuel
  induction fuel with
  | zero =>
    intro v m cnt x hx
    simp [fpOcc] at hx
  | succ fuel ih =>
    intro v m cnt x hx
    cases hE : t.getD v default with
    | Lf c =>
      simp only [fpOcc, hE] at hx
      simp at hx
    | Sp sidx l r =>
      simp only [fpOcc, hE, List.mem_append] at hx
      simp only [fpCount, hE]
      rcases hx with (hx | hx) | hx
      · have := ih l (makeSplit df sidx m none).1 cnt x hx
        omega
      · have := ih r (makeSplit df sidx m none).2
          (cnt + fpCount t df fuel l (makeSplit df sidx m none).1) x hx
        omega
      · by_cases hk : sidx.getColId = k
        · rw [if_pos hk] at hx
          simp at hx
          omega
        · rw [if_neg hk] at hx
          simp at hx

/-- A split on a column whose physical index differs from the permuted
column's is unaffected by the permutation. -/
theorem makeSplit_permuted_ne (df : XDf) (c : Nat) (pvec : List ThreeVal)
    (sidx : ColSplitIndex) (m : List Nat)
    (h : df.splitidToIdx.getD sidx.col_id 0 ≠ df.splitidToIdx.getD c 0) :
    makeSplit (dfWithPermuted df c pvec) sidx m none = makeSplit df sidx m none := by
  unfold makeSplit dfWithPermuted
  simp only
  rw [getD_set_ne _ _ _ _ _ (Ne.symm h)]

/-- A split on the permuted column itself reads the permuted vector. -/
theorem makeSplit_permuted_self (df : XDf) (c : Nat) (pvec : List ThreeVal)
    (sidx : ColSplitIndex) (m : List Nat)
    (h : df.splitidToIdx.getD sidx.col_id 0 = df.splitidToIdx.getD c 0)
    (hlen : df.splitidToIdx.getD c 0 < df.data.length) :
    makeSplit (dfWithPermuted df c pvec) sidx m none = splitWithPivot pvec m sidx.pivot := by
  unfold makeSplit dfWithPermuted
  simp only
  rw [h, getD_set_self _ _ _ _ hlen]

/-- A subtree with no recorded occurrence of the permuted column produces the
same leaf writes over the original and the column-permuted dataframe. -/
theorem fpWrites_permuted_of_no_occ [Inhabited Y] (t : List (Node Y)) (df : XDf)
    (ranks : List Nat) (c : Nat) (pvec : List ThreeVal)
    (hres : ∀ nid sidx l r, t.getD nid default = Node.Sp sidx l r → sidx.col_id ≠ c →
      df.splitidToIdx.getD sidx.col_id 0 ≠ df.splitidToIdx.getD c 0)
    (hsh : ∀ nid sidx l r, t.getD nid default = Node.Sp sidx l r →
      sidx.col_id = c → sidx.shadow = false) :
    ∀ fuel v m cnt, fpOcc t df ⟨c, false⟩ fuel v m cnt = [] →
      fpWrites t (dfWithPermuted df c pvec) ranks fuel v m = fpWrites t df ranks fuel v m := by
  intro fuel
  induction fuel with
  | zero => intro v m cnt _; rfl
  | succ fuel ih =>
    intro v m cnt hocc
    cases hE : t.getD v default with
    | Lf cc => simp only [fpWrites, hE]
    | Sp sidx l r =>
      simp only [fpOcc, hE, List.append_eq_nil] at hocc
      obtain ⟨⟨hoL, hoR⟩, hoO⟩ := hocc
      have hne : sidx.getColId ≠ (⟨c, false⟩ : SplitColId) := by
        intro he
        rw [if_pos he] at hoO
        exact List.cons_ne_nil _ _ hoO
      have hcol : sidx.col_id ≠ c := by
        intro hc
        exact hne (by simp [ColSplitIndex.getColId, hc, hsh v sidx l r hE hc])
      have hms : makeSplit (dfWithPermuted df c pvec) sidx m none =
          makeSplit df sidx m none := makeSplit_permuted_ne df c pvec sidx m (hres v sidx l r hE hcol)
      simp only [fpWrites, hE, hms]
      rw [ih l (makeSplit df sidx m none).1 cnt hoL,
        ih r (makeSplit df sidx m none).2 (cnt + fpCount t df fuel l (makeSplit df sidx m none).1)
          hoR]

/-- Once a subtree is altered (an ancestor split on the permuted column), the
permuted pass re-splits every node: it coincides with the from-scratch walk
over the column-permuted dataframe. -/
theorem predictRec_altered_eq_plain [Inhabited Y] (t : List (Node Y)) (df : XDf)
    (ST : TreeCaches Y) (c : Nat) (pvec : List ThreeVal) (ranks : List Nat)
    (hres : ∀ nid sidx l r, t.getD nid default = Node.Sp sidx l r → sidx.col_id ≠ c →
      df.splitidToIdx.getD sidx.col_id 0 ≠ df.splitidToIdx.getD c 0)
    (hclen : df.splitidToIdx.getD c 0 < df.data.length)
    (hsh : ∀ nid sidx l r, t.getD nid default = Node.Sp sidx l r →
      sidx.col_id = c → sidx.shadow = false) :
    ∀ fuel m v preds,
      predictRec t df ST ⟨c, false⟩ pvec ranks fuel m v true preds =
        plainPredict t (dfWithPermuted df c pvec) ranks fuel m v preds := by
  intro fuel
  induction fuel with
  | zero => intro m v preds; rfl
  | succ fuel ih =>
    intro m v preds
    cases hE : t.getD v default with
    | Lf cc => simp only [predictRec, plainPredict, hE]
    | Sp sidx l r =>
      simp only [predictRec, plainPredict, hE]
      by_cases hp : (⟨c, false⟩ : SplitColId) = sidx.getColId
      · have hcol : sidx.col_id = c := by
          cases sidx with
          | mk a b sh => cases hp; rfl
        have hms : makeSplit (dfWithPermuted df c pvec) sidx m none =
            splitWithPivot pvec m sidx.pivot :=
          makeSplit_permuted_self df c pvec sidx m (by rw [hcol]) hclen
        have hd : (decide ((⟨c, false⟩ : SplitColId) = sidx.getColId)) = true :=
          decide_eq_true hp
        have hms2 : makeSplit df sidx m (some pvec) = splitWithPivot pvec m sidx.pivot := rfl
        simp only [hd, hms, hms2, Bool.true_or, Bool.or_true, not_true, and_false,
          false_and, if_false, eq_self_iff_true, if_true, true_or, or_true, ih]
      · have hcol : sidx.col_id ≠ c := by
          intro hc
          exact hp (by simp [ColSplitIndex.getColId, hc, hsh v sidx l r hE hc])
        have hms : makeSplit (dfWithPermuted df c pvec) sidx m none =
            makeSplit df sidx m none := makeSplit_permuted_ne df c pvec sidx m (hres v sidx l r hE hcol)
        have hd : (decide ((⟨c, false⟩ : SplitColId) = sidx.getColId)) = false :=
          decide_eq_false hp
        simp only [hd, hms, Bool.true_or, Bool.or_true, not_true, not_false_iff, and_false,
          false_and, if_false, eq_self_iff_true, if_true, true_or, or_true, ih]
        simp


/-- The cached permuted pass on an unaltered subtree agrees with the
from-scratch walk over the column-permuted dataframe, provided the caches
hold the subtree first-pass contributions (at arbitrary offsets, with
arbitrary tails) and every recorded occurrence of the permuted column is in
`split_mask_map`. -/
theorem predictRec_cached_eq_plain [Inhabited Y] (t : List (Node Y)) (df : XDf)
    (ST : TreeCaches Y) (c : Nat) (pvec : List ThreeVal) (ranks : List Nat)
    (hres : ∀ nid sidx l r, t.getD nid default = Node.Sp sidx l r → sidx.col_id ≠ c →
      df.splitidToIdx.getD sidx.col_id 0 ≠ df.splitidToIdx.getD c 0)
    (hclen : df.splitidToIdx.getD c 0 < df.data.length)
    (hsh : ∀ nid sidx l r, t.getD nid default = Node.Sp sidx l r →
      sidx.col_id = c → sidx.shadow = false)
    (hmclen : 0 < ST.mask_cache.length) :
    ∀ fuel lo v m poff cnt tlm tlp tls tlw (preds : List (Option Y)),
      Wf t lo v → v - lo + 1 ≤ fuel →
      ST.mask_cache.drop lo = fpMasks t df fuel v m ++ tlm →
      ST.preds_cache_range.drop lo = fpPredsRanges t df ranks fuel v m poff ++ tlp →
      ST.split_idx_cache_range.drop lo = fpSplitRanges t df fuel v m cnt ++ tls →
      ST.preds_cache.drop poff = fpWrites t df ranks fuel v m ++ tlw →
      (∀ x, x ∈ fpOcc t df ⟨c, false⟩ fuel v m cnt → x ∈ ST.split_mask_map ⟨c, false⟩) →
      predictRec t df ST ⟨c, false⟩ pvec ranks fuel m v false preds =
        plainPredict t (dfWithPermuted df c pvec) ranks fuel m v preds := by
  intro fuel
  induction fuel with
  | zero =>
    intro lo v m poff cnt tlm tlp tls tlw preds hwf hfl hm hpr hsr hpc hocc
    omega
  | succ fuel ih =>
    intro lo v m poff cnt tlm tlp tls tlw preds hwf hfl hm hpr hsr hpc hocc
    have child : ∀ lo2 v2 m2 poff2 cnt2 tlm2 tlp2 tls2 tlw2 (p2 : List (Option Y)),
        Wf t lo2 v2 → v2 - lo2 + 1 ≤ fuel →
        ST.mask_cache.drop lo2 = fpMasks t df fuel v2 m2 ++ tlm2 →
        ST.preds_cache_range.drop lo2 = fpPredsRanges t df ranks fuel v2 m2 poff2 ++ tlp2 →
        ST.split_idx_cache_range.drop lo2 = fpSplitRanges t df fuel v2 m2 cnt2 ++ tls2 →
        ST.preds_cache.drop poff2 = fpWrites t df ranks fuel v2 m2 ++ tlw2 →
        (∀ x, x ∈ fpOcc t df ⟨c, false⟩ fuel v2 m2 cnt2 → x ∈ ST.split_mask_map ⟨c, false⟩) →
        (if (predsReadCache t ST v2 ⟨c, false⟩ p2).1 = true
         then (predsReadCache t ST v2 ⟨c, false⟩ p2).2
         else predictRec t df ST ⟨c, false⟩ pvec ranks fuel m2 v2 false
           (predsReadCache t ST v2 ⟨c, false⟩ p2).2) =
          plainPredict t (dfWithPermuted df c pvec) ranks fuel m2 v2 p2 := by
      intro lo2 v2 m2 poff2 cnt2 tlm2 tlp2 tls2 tlw2 p2 hwf2 hfl2 hm2 hpr2 hsr2 hpc2 hocc2
      obtain ⟨hLm2, hLp2, hLs2⟩ := fp_lengths t df ranks fuel lo2 v2 m2 poff2 cnt2 hwf2 hfl2
      have hroot2 := fp_root_entries t df ranks fuel lo2 v2 m2 poff2 cnt2 hwf2 hfl2
      cases hE2 : t.getD v2 default with
      | Lf cc =>
        have hrc : predsReadCache t ST v2 (⟨c, false⟩ : SplitColId) p2 = (false, p2) := by
          unfold predsReadCache
          rw [hE2]
        rw [hrc]
        simp only [Bool.false_eq_true, if_false]
        exact ih lo2 v2 m2 poff2 cnt2 tlm2 tlp2 tls2 tlw2 p2 hwf2 hfl2 hm2 hpr2 hsr2 hpc2 hocc2
      | Sp sidx2 l2 r2 =>
        have hrange : ST.split_idx_cache_range.getD v2 (0, 0) =
            (cnt2, cnt2 + fpCount t df fuel v2 m2 - 1) := by
          have h1 : ST.split_idx_cache_range.getD v2 (0, 0) =
              (ST.split_idx_cache_range.drop lo2).getD (v2 - lo2) (0, 0) := by
            rw [getD_drop]
            congr 1
            cases hwf2 <;> omega
          rw [h1, hsr2, getD_append_lt _ _ _ _ (by rw [hLs2]; omega)]
          exact hroot2.2.2.2 sidx2 l2 r2 hE2
        have hprange : ST.preds_cache_range.getD v2 (0, 0) =
            (poff2, poff2 + (fpWrites t df ranks fuel v2 m2).length) := by
          have h1 : ST.preds_cache_range.getD v2 (0, 0) =
              (ST.preds_cache_range.drop lo2).getD (v2 - lo2) (0, 0) := by
            rw [getD_drop]
            congr 1
            cases hwf2 <;> omega
          rw [h1, hpr2, getD_append_lt _ _ _ _ (by rw [hLp2]; omega)]
          exact hroot2.2.1
        by_cases hA : ((ST.split_mask_map (⟨c, false⟩ : SplitColId)).any
            (fun idx => decide ((ST.split_idx_cache_range.getD v2 (0, 0)).1 ≤ idx ∧
              idx ≤ (ST.split_idx_cache_range.getD v2 (0, 0)).2))) = true
        · have hrc : predsReadCache t ST v2 (⟨c, false⟩ : SplitColId) p2 = (false, p2) := by
            unfold predsReadCache
            rw [hE2]
            simp only [hA, eq_self_iff_true, if_true]
          rw [hrc]
          simp only [Bool.false_eq_true, if_false]
          exact ih lo2 v2 m2 poff2 cnt2 tlm2 tlp2 tls2 tlw2 p2 hwf2 hfl2 hm2 hpr2 hsr2 hpc2 hocc2
        · rw [Bool.not_eq_true] at hA
          rw [hrange] at hA
          have hoccnil : fpOcc t df (⟨c, false⟩ : SplitColId) fuel v2 m2 cnt2 = [] := by
            by_contra hne
            obtain ⟨x, hx⟩ := List.exists_mem_of_ne_nil _ hne
            have hxmap := hocc2 x hx
            have hxr := fpOcc_range t df (⟨c, false⟩ : SplitColId) fuel v2 m2 cnt2 x hx
            have hcpos : 0 < fpCount t df fuel v2 m2 := by
              obtain ⟨fuel, rfl⟩ : ∃ f, fuel = f + 1 := ⟨fuel - 1, by omega⟩
              simp only [fpCount, hE2]
              omega
            have hA2 := hA
            rw [List.any_eq_false] at hA2
            have := hA2 x hxmap
            simp only [decide_eq_true_eq, not_and, not_le] at this
            omega
          have hW : fpWrites t (dfWithPermuted df c pvec) ranks fuel v2 m2 =
              fpWrites t df ranks fuel v2 m2 :=
            fpWrites_permuted_of_no_occ t df ranks c pvec hres hsh fuel v2 m2 cnt2 hoccnil
          by_cases hB : poff2 < ST.preds_cache.length
          · have hrc : predsReadCache t ST v2 (⟨c, false⟩ : SplitColId) p2 =
                (true, foldWrites (fpWrites t df ranks fuel v2 m2) p2) := by
              unfold predsReadCache
              rw [hE2]
              simp only [hprange, hrange, hA, Bool.false_eq_true, if_false]
              rw [if_pos hB]
              congr 1
              rw [hpc2]
              have he : poff2 + (fpWrites t df ranks fuel v2 m2).length - poff2 =
                  (fpWrites t df ranks fuel v2 m2).length := by omega
              rw [he, take_append_len]
            rw [hrc]
            simp only [if_true]
            rw [plainPredict_eq_foldWrites, hW]
          · have hrc : predsReadCache t ST v2 (⟨c, false⟩ : SplitColId) p2 = (false, p2) := by
              unfold predsReadCache
              rw [hE2]
              simp only [hprange, hrange, hA, Bool.false_eq_true, if_false]
              rw [if_neg hB]
            rw [hrc]
            simp only [Bool.false_eq_true, if_false]
            exact ih lo2 v2 m2 poff2 cnt2 tlm2 tlp2 tls2 tlw2 p2 hwf2 hfl2 hm2 hpr2 hsr2 hpc2
              hocc2
    cases hwf with
    | leaf lo c0 hlt hnode =>
      simp only [predictRec, plainPredict, hnode]
    | split lo l r nid sidx hlt hnode hr hlol hlr hwl hwr =>
      have hfL : l - lo + 1 ≤ fuel := by omega
      have hfR : r - (l + 1) + 1 ≤ fuel := by omega
      obtain ⟨hLm, hLp, hLs⟩ := fp_lengths t df ranks fuel lo l (makeSplit df sidx m none).1
        poff cnt hwl hfL
      have hrootL := fp_root_entries t df ranks fuel lo l (makeSplit df sidx m none).1
        poff cnt hwl hfL
      have hrootR := fp_root_entries t df ranks fuel (l + 1) r (makeSplit df sidx m none).2
        (poff + (fpWrites t df ranks fuel l (makeSplit df sidx m none).1).length)
        (cnt + fpCount t df fuel l (makeSplit df sidx m none).1) hwr hfR
      obtain ⟨hRm, hRp, hRs⟩ := fp_lengths t df ranks fuel (l + 1) r
        (makeSplit df sidx m none).2
        (poff + (fpWrites t df ranks fuel l (makeSplit df sidx m none).1).length)
        (cnt + fpCount t df fuel l (makeSplit df sidx m none).1) hwr hfR
      have hmU : ST.mask_cache.drop lo = fpMasks t df fuel l (makeSplit df sidx m none).1 ++
          (fpMasks t df fuel r (makeSplit df sidx m none).2 ++ ([m] ++ tlm)) := by
        rw [hm]
        simp only [fpMasks, hnode, List.append_assoc]
      have hprU : ST.preds_cache_range.drop lo =
          fpPredsRanges t df ranks fuel l (makeSplit df sidx m none).1 poff ++
          (fpPredsRanges t df ranks fuel r (makeSplit df sidx m none).2
            (poff + (fpWrites t df ranks fuel l (makeSplit df sidx m none).1).length) ++
          ([(poff, poff + (fpWrites t df ranks fuel l (makeSplit df sidx m none).1).length +
            (fpWrites t df ranks fuel r (makeSplit df sidx m none).2).length)] ++ tlp)) := by
        rw [hpr]
        simp only [fpPredsRanges, hnode, List.append_assoc]
      have hsrU : ST.split_idx_cache_range.drop lo =
          fpSplitRanges t df fuel l (makeSplit df sidx m none).1 cnt ++
          (fpSplitRanges t df fuel r (makeSplit df sidx m none).2
            (cnt + fpCount t df fuel l (makeSplit df sidx m none).1) ++
          ([(cnt, cnt + fpCount t df fuel l (makeSplit df sidx m none).1 +
            fpCount t df fuel r (makeSplit df sidx m none).2)] ++ tls)) := by
        rw [hsr]
        simp only [fpSplitRanges, hnode, List.append_assoc]
      have hpcU : ST.preds_cache.drop poff =
          fpWrites t df ranks fuel l (makeSplit df sidx m none).1 ++
          (fpWrites t df ranks fuel r (makeSplit df sidx m none).2 ++ tlw) := by
        rw [hpc]
        simp only [fpWrites, hnode, List.append_assoc]
      have hmR : ST.mask_cache.drop (l + 1) =
          fpMasks t df fuel r (makeSplit df sidx m none).2 ++ ([m] ++ tlm) := by
        have h1 : ST.mask_cache.drop (l + 1) = (ST.mask_cache.drop lo).drop (l + 1 - lo) := by
          rw [List.drop_drop]
          congr 1
          omega
        rw [h1, hmU]
        have h2 : l + 1 - lo = (fpMasks t df fuel l (makeSplit df sidx m none).1).length := by
          rw [hLm]
          omega
        rw [h2, drop_append_len]
      have hprR : ST.preds_cache_range.drop (l + 1) =
          fpPredsRanges t df ranks fuel r (makeSplit df sidx m none).2
            (poff + (fpWrites t df ranks fuel l (makeSplit df sidx m none).1).length) ++
          ([(poff, poff + (fpWrites t df ranks fuel l (makeSplit df sidx m none).1).length +
            (fpWrites t df ranks fuel r (makeSplit df sidx m none).2).length)] ++ tlp) := by
        have h1 : ST.preds_cache_range.drop (l + 1) =
            (ST.preds_cache_range.drop lo).drop (l + 1 - lo) := by
          rw [List.drop_drop]
          congr 1
          omega
        rw [h1, hprU]
        have h2 : l + 1 - lo =
            (fpPredsRanges t df ranks fuel l (makeSplit df sidx m none).1 poff).length := by
          rw [hLp]
          omega
        rw [h2, drop_append_len]
      have hsrR : ST.split_idx_cache_range.drop (l + 1) =
          fpSplitRanges t df fuel r (makeSplit df sidx m none).2
            (cnt + fpCount t df fuel l (makeSplit df sidx m none).1) ++
          ([(cnt, cnt + fpCount t df fuel l (makeSplit df sidx m none).1 +
            fpCount t df fuel r (makeSplit df sidx m none).2)] ++ tls) := by
        have h1 : ST.split_idx_cache_range.drop (l + 1) =
            (ST.split_idx_cache_range.drop lo).drop (l + 1 - lo) := by
          rw [List.drop_drop]
          congr 1
          omega
        rw [h1, hsrU]
        have h2 : l + 1 - lo =
            (fpSplitRanges t df fuel l (makeSplit df sidx m none).1 cnt).length := by
          rw [hLs]
          omega
        rw [h2, drop_append_len]
      have hpcR : ST.preds_cache.drop
          (poff + (fpWrites t df ranks fuel l (makeSplit df sidx m none).1).length) =
          fpWrites t df ranks fuel r (makeSplit df sidx m none).2 ++ tlw := by
        have h1 : ST.preds_cache.drop
            (poff + (fpWrites t df ranks fuel l (makeSplit df sidx m none).1).length) =
            (ST.preds_cache.drop poff).drop
              (fpWrites t df ranks fuel l (makeSplit df sidx m none).1).length := by
          rw [List.drop_drop]
        rw [h1, hpcU, drop_append_len]
      have hoccL : ∀ x, x ∈ fpOcc t df (⟨c, false⟩ : SplitColId) fuel l
          (makeSplit df sidx m none).1 cnt → x ∈ ST.split_mask_map ⟨c, false⟩ := by
        intro x hx
        refine hocc x ?_
        simp only [fpOcc, hnode, List.mem_append]
        exact Or.inl (Or.inl hx)
      have hoccR : ∀ x, x ∈ fpOcc t df (⟨c, false⟩ : SplitColId) fuel r
          (makeSplit df sidx m none).2
          (cnt + fpCount t df fuel l (makeSplit df sidx m none).1) →
          x ∈ ST.split_mask_map ⟨c, false⟩ := by
        intro x hx
        refine hocc x ?_
        simp only [fpOcc, hnode, List.mem_append]
        exact Or.inl (Or.inr hx)
      have hMl : ST.mask_cache.getD l [] = (makeSplit df sidx m none).1 := by
        have h1 : ST.mask_cache.getD l [] = (ST.mask_cache.drop lo).getD (l - lo) [] := by
          rw [getD_drop]
          congr 1
          omega
        rw [h1, hmU, getD_append_lt _ _ _ _ (by rw [hLm]; omega)]
        exact hrootL.1
      have hMr : ST.mask_cache.getD r [] = (makeSplit df sidx m none).2 := by
        have h1 : ST.mask_cache.getD r [] = (ST.mask_cache.drop lo).getD (r - lo) [] := by
          rw [getD_drop]
          congr 1
          omega
        rw [h1, hmU]
        have h2 : r - lo = (fpMasks t df fuel l (makeSplit df sidx m none).1).length +
            (r - (l + 1)) := by
          rw [hLm]
          omega
        rw [h2, getD_append_right, getD_append_lt _ _ _ _ (by rw [hRm]; omega)]
        exact hrootR.1
      by_cases hp : (⟨c, false⟩ : SplitColId) = sidx.getColId
      · have hcol : sidx.col_id = c := by
          cases sidx with
          | mk a b sh => cases hp; rfl
        have hms : makeSplit (dfWithPermuted df c pvec) sidx m none =
            splitWithPivot pvec m sidx.pivot :=
          makeSplit_permuted_self df c pvec sidx m (by rw [hcol]) hclen
        have hd : (decide ((⟨c, false⟩ : SplitColId) = sidx.getColId)) = true :=
          decide_eq_true hp
        have hms2 : makeSplit df sidx m (some pvec) = splitWithPivot pvec m sidx.pivot := rfl
        simp only [predictRec, plainPredict, hnode, hd, hms, hms2, Bool.true_or, Bool.or_true,
          Bool.or_false, Bool.false_or, not_true, and_false, false_and, if_false,
          eq_self_iff_true, if_true, true_or, or_true,
          predictRec_altered_eq_plain t df ST c pvec ranks hres hclen hsh]
      · have hcol : sidx.col_id ≠ c := by
          intro hc
          exact hp (by simp [ColSplitIndex.getColId, hc, hsh v sidx l r hnode hc])
        have hms : makeSplit (dfWithPermuted df c pvec) sidx m none =
            makeSplit df sidx m none :=
          makeSplit_permuted_ne df c pvec sidx m (hres v sidx l r hnode hcol)
        have hd : (decide ((⟨c, false⟩ : SplitColId) = sidx.getColId)) = false :=
          decide_eq_false hp
        have hcL := child lo l (makeSplit df sidx m none).1 poff cnt
          (fpMasks t df fuel r (makeSplit df sidx m none).2 ++ ([m] ++ tlm))
          (fpPredsRanges t df ranks fuel r (makeSplit df sidx m none).2
            (poff + (fpWrites t df ranks fuel l (makeSplit df sidx m none).1).length) ++
            ([(poff, poff + (fpWrites t df ranks fuel l (makeSplit df sidx m none).1).length +
              (fpWrites t df ranks fuel r (makeSplit df sidx m none).2).length)] ++ tlp))
          (fpSplitRanges t df fuel r (makeSplit df sidx m none).2
            (cnt + fpCount t df fuel l (makeSplit df sidx m none).1) ++
            ([(cnt, cnt + fpCount t df fuel l (makeSplit df sidx m none).1 +
              fpCount t df fuel r (makeSplit df sidx m none).2)] ++ tls))
          (fpWrites t df ranks fuel r (makeSplit df sidx m none).2 ++ tlw)
          preds hwl hfL hmU hprU hsrU hpcU hoccL
        have hcR := child (l + 1) r (makeSplit df sidx m none).2
          (poff + (fpWrites t df ranks fuel l (makeSplit df sidx m none).1).length)
          (cnt + fpCount t df fuel l (makeSplit df sidx m none).1)
          ([m] ++ tlm)
          ([(poff, poff + (fpWrites t df ranks fuel l (makeSplit df sidx m none).1).length +
            (fpWrites t df ranks fuel r (makeSplit df sidx m none).2).length)] ++ tlp)
          ([(cnt, cnt + fpCount t df fuel l (makeSplit df sidx m none).1 +
            fpCount t df fuel r (makeSplit df sidx m none).2)] ++ tls)
          tlw
          (plainPredict t (dfWithPermuted df c pvec) ranks fuel
            (makeSplit df sidx m none).1 l preds)
          hwr hfR hmR hprR hsrR hpcR hoccR
        simp only [predictRec, plainPredict, hnode, hd, hms, hMl, hMr, hmclen, Bool.false_or,
          Bool.or_false, not_false_iff, and_true, true_and, eq_self_iff_true, if_true,
          Bool.false_eq_true, false_or, or_false, or_self, if_false]
        rw [hcL, hcR]


theorem Wf.lt_length [Inhabited Y] {t : List (Node Y)} {lo v : Nat} (h : Wf t lo v) :
    v < t.length := by
  cases h with
  | leaf lo c hlt hnode => exact hlt
  | split lo l r nid sidx hlt hnode hr hlol hlr hwl hwr => exact hlt

theorem getD_mem_of_lt (l : List α) (n : Nat) (d : α) (h : n < l.length) : l.getD n d ∈ l := by
  induction l generalizing n with
  | nil => simp at h
  | cons x rest ih =>
    cases n with
    | zero => simp
    | succ n =>
      simp only [List.getD_cons_succ]
      exact List.mem_cons_of_mem _ (ih n (by simp at h; omega))

theorem getD_of_le (l : List α) (n : Nat) (d : α) (h : l.length ≤ n) : l.getD n d = d := by
  induction l generalizing n with
  | nil => cases n <;> rfl
  | cons x rest ih =>
    cases n with
    | zero => simp at h
    | succ n =>
      simp only [List.getD_cons_succ]
      exact ih n (by simp at h; omega)

/-- Decidable per-node form of the split-id resolution hypothesis: every
split column other than the permuted one resolves to a different physical
column. -/
def nodeResOk (df : XDf) (c : Nat) : Node Y → Bool
  | .Sp sidx _ _ =>
      decide (sidx.col_id = c) ||
      decide (df.splitidToIdx.getD sidx.col_id 0 ≠ df.splitidToIdx.getD c 0)
  | .Lf _ => true

/-- Decidable per-node form of the shadow hypothesis: a split on the
permuted column carries `shadow = false` (so `get_col_id` matches the
permuted column identifier). -/
def nodeShadowOk (c : Nat) : Node Y → Bool
  | .Sp sidx _ _ => decide (sidx.col_id ≠ c) || decide (sidx.shadow = false)
  | .Lf _ => true

/-- C1 (amended): for every well-formed arena, permuted split-id `c` and OOB
mask, the cached permuted-predict path (replaying `preds_cache` for subtrees
with no recorded occurrence of `c` and re-splitting affected subtrees)
returns exactly the prediction vector of a from-scratch uncached walk over
the dataframe whose column `c` was permuted on the mask with the same
permutation stream — provided distinct split-ids used by the tree resolve
to distinct physical columns, the permuted column is in range, and no split
on `c` carries the (dead) `shadow` flag, which would make `get_col_id`
differ from the permuted column identifier. -/
theorem predict_permuted_cached_eq_uncached [Inhabited Y] (t : List (Node Y)) (df : XDf)
    (mask ranks : List Nat) (c seed ncol ntree ithTree : Nat)
    (hwf : Wf t 0 (t.length - 1))
    (hres : t.all (fun nd => nodeResOk df c nd) = true)
    (hsh : t.all (fun nd => nodeShadowOk c nd) = true)
    (hclen : df.splitidToIdx.getD c 0 < df.data.length) :
    predictPermuted t df (predictFirst t df mask ranks).1 seed ncol ntree ithTree mask ranks
      ⟨c, false⟩ =
    plainPredict t
      (dfWithPermuted df c (permuteIndex df ⟨c, false⟩ seed ncol ntree ithTree mask))
      ranks t.length mask (t.length - 1) (List.replicate mask.length none) := by
  have ht : 0 < t.length := by
    have hv := Wf.lt_length hwf
    omega
  have hST : (predictFirst t df mask ranks).1 =
      ({ mask_cache := fpMasks t df t.length (t.length - 1) mask
         preds_cache := fpWrites t df ranks t.length (t.length - 1) mask
         preds_cache_range := fpPredsRanges t df ranks t.length (t.length - 1) mask 0
         split_idx_cache_range := fpSplitRanges t df t.length (t.length - 1) mask 0
         split_mask_map := fun k => fpOcc t df k t.length (t.length - 1) mask 0 } :
        TreeCaches Y) := by
    unfold predictFirst
    rw [predsWrite_spec]
    simp [emptyCaches]
  have hres2 : ∀ nid sidx l r, t.getD nid default = Node.Sp sidx l r → sidx.col_id ≠ c →
      df.splitidToIdx.getD sidx.col_id 0 ≠ df.splitidToIdx.getD c 0 := by
    intro nid sidx l r h hne
    have hmem : Node.Sp sidx l r ∈ t := by
      by_cases hlt : nid < t.length
      · have hmm := getD_mem_of_lt t nid default hlt
        rwa [h] at hmm
      · rw [getD_of_le t nid default (by omega)] at h
        exact Node.noConfusion (show Node.Lf (default : Y) = Node.Sp sidx l r from h)
    have hall := List.all_eq_true.mp hres _ hmem
    simp only [nodeResOk, Bool.or_eq_true, decide_eq_true_eq] at hall
    rcases hall with hc | hd
    · exact absurd hc hne
    · exact hd
  have hsh2 : ∀ nid sidx l r, t.getD nid default = Node.Sp sidx l r → sidx.col_id = c →
      sidx.shadow = false := by
    intro nid sidx l r h hc
    have hmem : Node.Sp sidx l r ∈ t := by
      by_cases hlt : nid < t.length
      · have hmm := getD_mem_of_lt t nid default hlt
        rwa [h] at hmm
      · rw [getD_of_le t nid default (by omega)] at h
        exact Node.noConfusion (show Node.Lf (default : Y) = Node.Sp sidx l r from h)
    have hall := List.all_eq_true.mp hsh _ hmem
    simp only [nodeShadowOk, Bool.or_eq_true, decide_eq_true_eq] at hall
    rcases hall with hd | hd
    · exact absurd hc hd
    · exact hd
  have hlen1 := (fp_lengths t df ranks t.length 0 (t.length - 1) mask 0 0 hwf (by omega)).1
  simp only [predictPermuted]
  rw [hST]
  refine predictRec_cached_eq_plain t df _ c _ ranks hres2 hclen hsh2 ?_ t.length 0
    (t.length - 1) mask 0 0 [] [] [] [] (List.replicate mask.length none) hwf (by omega)
    (by simp) (by simp) (by simp) (by simp) ?_
  · show 0 < (fpMasks t df t.length (t.length - 1) mask).length
    rw [hlen1]
    omega
  · intro x hx
    simpa using hx

/-- A two-leaf arena whose root splits on split-id 0 with the dead `shadow`
flag set — the shape `_build_tree` produces when `find_min_idx` picks a
shadow column. -/
def ctree : List (Node Nat) := [Node.Lf 0, Node.Lf 1, Node.Sp ⟨0, ThreeValPivot.NotRed, true⟩ 0 1]

/-- The same arena with the `shadow` flag cleared. -/
def wtree : List (Node Nat) :=
  [Node.Lf 0, Node.Lf 1, Node.Sp ⟨0, ThreeValPivot.NotRed, false⟩ 0 1]

/-- A one-column dataframe with rows `[Green, Red]` and identity split-id
maps. -/
def cdf : XDf := ⟨[[ThreeVal.Green, ThreeVal.Red]], [0], [0]⟩

unseal List.merge List.mergeSort in
/-- C1 counterexample to the literal claim: on a tree whose root splits on
split-id 0 with the `shadow` flag set, `get_col_id` differs from the
permuted column identifier `(0, shadow: false)`, so the cached path treats
the whole tree as unaffected and replays the first-pass predictions, while
the from-scratch walk on the column-permuted dataframe follows the permuted
column (seed 21 swaps the two masked rows) and returns the opposite
assignment. -/
theorem predict_cached_shadow_counterexample :
    predictPermuted ctree cdf (predictFirst ctree cdf [0, 1] [0, 1]).1 21 1 1 0 [0, 1] [0, 1]
        ⟨0, false⟩ ≠
      plainPredict ctree (dfWithPermuted cdf 0 (permuteIndex cdf ⟨0, false⟩ 21 1 1 0 [0, 1]))
        [0, 1] ctree.length [0, 1] (ctree.length - 1) (List.replicate 2 none) := by
  decide

/-- Witness: the amended C1 theorem applied to a concrete shadow-free tree,
dataframe, mask and seed (seed 21 permutes the two masked rows). -/
theorem predict_permuted_cached_eq_uncached_witness :
    predictPermuted wtree cdf (predictFirst wtree cdf [0, 1] [0, 1]).1 21 1 1 0 [0, 1] [0, 1]
        ⟨0, false⟩ =
      plainPredict wtree (dfWithPermuted cdf 0 (permuteIndex cdf ⟨0, false⟩ 21 1 1 0 [0, 1]))
        [0, 1] wtree.length [0, 1] (wtree.length - 1) (List.replicate 2 none) :=
  predict_permuted_cached_eq_uncached wtree cdf [0, 1] [0, 1] 0 21 1 1 0
    (Wf.split 0 0 1 2 ⟨0, ThreeValPivot.NotRed, false⟩ (by decide) (by decide) (by decide)
      (by decide) (by decide)
      (Wf.leaf 0 0 (by decide) (by decide))
      (Wf.leaf 1 1 (by decide) (by decide)))
    (by decide) (by decide) (by decide)


end VF
